import Mathlib

/-!
Verification of the directive parser and template-merge engine of this
repository.  The two entry points embedded here are
`TextCommandParser.parse_text` (ComfyUI custom node, `nodes.py`) and
`parse_prompt` (web router, `images.py`), together with their helpers
`sanitize_base_path` and `_load_file_as_base64`.

Python strings are modelled as Lean `String`/`List Char`; the regular
expression `(?:--|—|—)(\w+)(?:[ =](.*?))?(?=(?:--|—|—)|$)` is
embedded as an explicit backtracking scanner; the filesystem, the network
and the random generator are passed in as explicit parameters.
-/

namespace FTC

/-- Python `str.isspace`-style whitespace class used by `\s` and `str.strip()`
(ASCII part; the unicode whitespace code points are not exercised here). -/
def isSpacePy (c : Char) : Bool :=
  c = ' ' || c = '\t' || c = '\n' || c = '\r' || c = '\x0b' || c = '\x0c'

/-- Python `str.strip()` on a character list. -/
def pyStripL (l : List Char) : List Char :=
  ((l.dropWhile isSpacePy).reverse.dropWhile isSpacePy).reverse

/-- Python `str.strip()`. -/
def pyStrip (s : String) : String := String.mk (pyStripL s.data)

/-- One step of `re.sub(r"\s{2,}", " ", ·)`: a maximal whitespace run of
length at least two becomes a single space (fuelled so that the kernel can
evaluate it; the fuel is always the length of the list). -/
def collapseGo : Nat → List Char → List Char
  | 0, l => l
  | _ + 1, [] => []
  | f + 1, c :: rest =>
    if isSpacePy c then
      match rest with
      | d :: _ =>
        if isSpacePy d then ' ' :: collapseGo f (rest.dropWhile isSpacePy)
        else c :: collapseGo f rest
      | [] => [c]
    else c :: collapseGo f rest

/-- `re.sub(r"\s{2,}", " ", ·)` on a character list. -/
def collapseWS (l : List Char) : List Char := collapseGo l.length l

/-- Whether a character list contains two adjacent whitespace characters. -/
def hasRun2 : List Char → Bool
  | c :: d :: r => (isSpacePy c && isSpacePy d) || hasRun2 (d :: r)
  | _ => false

/-- Python `str.split()` (split on whitespace runs, no empty parts),
fuelled for kernel evaluation. -/
def pySplitGo : Nat → List Char → List (List Char)
  | 0, _ => []
  | _ + 1, [] => []
  | f + 1, c :: r =>
    if isSpacePy c then pySplitGo f r
    else (c :: r.takeWhile (fun d => !isSpacePy d)) ::
      pySplitGo f (r.dropWhile (fun d => !isSpacePy d))

/-- Python `str.split()` producing `String` tokens. -/
def pySplit (s : String) : List String :=
  (pySplitGo s.data.length s.data).map String.mk

/-- Python `" ".join(l)`. -/
def joinSpace : List String → String
  | [] => ""
  | [w] => w
  | w :: x :: ws => w ++ " " ++ joinSpace (x :: ws)

/-- Split a character list on a separator character, Python
`str.split(sep)` style (empty parts are kept). -/
def splitOnC (sep : Char) : List Char → List (List Char)
  | [] => [[]]
  | c :: r =>
    match splitOnC sep r with
    | [] => [[]]
    | w :: ws => if c = sep then [] :: w :: ws else (c :: w) :: ws

/-- Python `str.lower()` (ASCII part). -/
def lowerL (l : List Char) : List Char := l.map Char.toLower

/-- Python `str.lstrip("/")`. -/
def lstripSlash (s : String) : String := String.mk (s.data.dropWhile (· = '/'))

/-- Python `s.startswith(pre)` (a character-level prefix test). -/
def swith (s pre : String) : Bool := List.isPrefixOf pre.data s.data

/-- Python `s.endswith(suf)` (a character-level suffix test). -/
def ewith (s suf : String) : Bool := List.isSuffixOf suf.data s.data

/-- Python `str.strip(", ")`: strip the characters `,` and space from both
ends of a string. -/
def isCommaSpace (c : Char) : Bool := c = ',' || c = ' '

/-- Python `s.strip(", ")`. -/
def stripCommaSpace (s : String) : String :=
  String.mk (((s.data.dropWhile isCommaSpace).reverse.dropWhile isCommaSpace).reverse)

/-! ### The directive pattern

`PATTERN = re.compile(r"(?:--|—|—)(\w+)(?:[ =](.*?))?(?=(?:--|—|—)|$)")`
(`—` *is* `—`, so the delimiter is `--` or a single em dash).
The scanner below is a direct operational embedding of Python `re`
semantics for this pattern: left-to-right non-overlapping matching, a
greedy `\w+` key, an optional greedy group holding a lazy value that stops
at the first position where the lookahead (a delimiter, the end of the
string, or the position just before a final newline) holds, with `.` not
matching a newline. -/

/-- Word characters for `\w` (ASCII letters, digits, underscore; the
directive keys exercised by this repository are all ASCII). -/
def isWordChar (c : Char) : Bool := c.isAlphanum || c = '_'

/-- Consume one delimiter (`--` or an em dash) from the head of the list. -/
def dropDelim : List Char → Option (List Char)
  | [] => none
  | [c] => if c = '—' then some [] else none
  | c :: d :: r =>
    if c = '-' && d = '-' then some r
    else if c = '—' then some (d :: r) else none

/-- Whether the list starts with a directive delimiter. -/
def startsDelim (l : List Char) : Bool := (dropDelim l).isSome

/-- The lookahead `(?=(?:--|—|—)|$)`: a delimiter starts here, or this
is the end of the string, or the only remaining character is a final
newline (Python `$` without `re.MULTILINE`). -/
def lookaheadOk (l : List Char) : Bool :=
  startsDelim l || l.isEmpty || decide (l = ['\n'])

/-- The lazy value `(.*?)`: consume the shortest run of non-newline
characters after which the lookahead holds.  Returns the captured value
and the rest of the input, or `none` when a newline blocks every
candidate stop position. -/
def lazyVal : List Char → Option (List Char × List Char)
  | [] => some ([], [])
  | c :: r =>
    if lookaheadOk (c :: r) then some ([], c :: r)
    else if c = '\n' then none
    else
      match lazyVal r with
      | some (v, rest) => some (c :: v, rest)
      | none => none

/-- Attempt to match the directive pattern at the head of the list.
Returns the key, the (possibly absent) raw value, and the suffix
following the match. -/
def tryMatch (l : List Char) : Option (String × Option String × List Char) :=
  match dropDelim l with
  | none => none
  | some afterD =>
    let key := afterD.takeWhile isWordChar
    if key = [] then none
    else
      let afterK := afterD.dropWhile isWordChar
      match afterK with
      | [] => some (String.mk key, none, [])
      | c :: r =>
        if c = ' ' || c = '=' then
          match lazyVal r with
          | some (v, rest) => some (String.mk key, some (String.mk v), rest)
          | none =>
            if lookaheadOk afterK then some (String.mk key, none, afterK) else none
        else
          if lookaheadOk afterK then some (String.mk key, none, afterK) else none

/-- One left-to-right scan of the input: the matches in order (as
`re.finditer`/`findall` produce them) together with the input with all
matched spans deleted (as `PATTERN.sub("", ·)` produces it).  Fuelled so
that the kernel can evaluate it; `scanList` instantiates the fuel with
the length of the input. -/
def scanGo : Nat → List Char → List (String × Option String) × List Char
  | 0, l => ([], l)
  | _ + 1, [] => ([], [])
  | f + 1, c :: rest =>
    match tryMatch (c :: rest) with
    | some (k, v, after) =>
      let p := scanGo f after
      ((k, v) :: p.1, p.2)
    | none =>
      let p := scanGo f rest
      (p.1, c :: p.2)

/-- Scan a character list with the directive pattern. -/
def scanList (l : List Char) : List (String × Option String) × List Char :=
  scanGo l.length l

/-- `{k: (v.strip() if v else "") for k, v in PATTERN.findall(text)}` before
dict deduplication: the ordered (key, stripped value) pairs. -/
def findallP (s : String) : List (String × String) :=
  (scanList s.data).1.map (fun p => (p.1, pyStrip (p.2.getD "")))

/-- `re.sub(r"\s{2,}", " ", PATTERN.sub("", text).strip()).strip()`:
the directive-free residual text. -/
def stripResidual (s : String) : String :=
  String.mk (pyStripL (collapseWS (pyStripL (scanList s.data).2)))

/-- Insert one binding into a Python-dict model: replace the value in
place if the key is present, else append. -/
def pyDictIns (acc : List (String × String)) (kv : String × String) :
    List (String × String) :=
  if acc.any (fun p => p.1 = kv.1) then
    acc.map (fun p => if p.1 = kv.1 then (p.1, kv.2) else p)
  else acc ++ [kv]

/-- The dict comprehension over `findall` results: first-insertion key
order, last value per key wins. -/
def pyDict (l : List (String × String)) : List (String × String) :=
  l.foldl pyDictIns []

/-! ### Python `int(...)` and `float(...)` on strings -/

/-- Numeric value of an ASCII digit. -/
def digitVal (c : Char) : Nat := c.toNat - 48

/-- Consume a run `digit (digit | _ digit)*` from the head (PEP 515
underscores), accumulating the value; returns value, number of digits
consumed, and the rest. -/
def digRunGo (acc cnt : Nat) : List Char → Nat × Nat × List Char
  | [] => (acc, cnt, [])
  | c :: cs =>
    if c.isDigit then digRunGo (acc * 10 + digitVal c) (cnt + 1) cs
    else if c = '_' then
      match cs with
      | d :: ds =>
        if d.isDigit then digRunGo (acc * 10 + digitVal d) (cnt + 1) ds
        else (acc, cnt, c :: cs)
      | [] => (acc, cnt, c :: cs)
    else (acc, cnt, c :: cs)

/-- A digit run may only start with a digit (never with an underscore). -/
def digRun (l : List Char) : Nat × Nat × List Char :=
  match l with
  | c :: _ => if c.isDigit then digRunGo 0 0 l else (0, 0, l)
  | [] => (0, 0, [])

/-- A complete nonempty digit run (helper of Python `int(s)`; unicode
digits are not modelled). -/
def pyIntAbs (l : List Char) : Option Nat :=
  let r := digRun l
  if r.2.1 ≠ 0 && r.2.2.isEmpty then some r.1 else none

/-- Python `int(s)` after stripping: optional sign, then a digit run that
must be nonempty and cover the whole rest. -/
def pyIntL (l : List Char) : Option Int :=
  let t := pyStripL l
  if t.head? = some '+' then (pyIntAbs t.tail).map (fun n => (n : Int))
  else if t.head? = some '-' then (pyIntAbs t.tail).map (fun n => -(n : Int))
  else (pyIntAbs t).map (fun n => (n : Int))

/-- Python `int(s)` on a `String`. -/
def pyInt? (s : String) : Option Int := pyIntL s.data

/-- The ASCII digit character for a value below ten. -/
def digitChar (d : Nat) : Char := Char.ofNat (48 + d)

/-- Most-significant-first decimal digits of a natural number (fuelled;
`natDigs` instantiates the fuel with the number itself). -/
def natDigsGo : Nat → Nat → List Char
  | 0, n => [digitChar (n % 10)]
  | f + 1, n => if n < 10 then [digitChar n] else natDigsGo f (n / 10) ++ [digitChar (n % 10)]

/-- Decimal digits of a natural number. -/
def natDigs (n : Nat) : List Char := natDigsGo n n

/-- Python `str(n)` for an integer. -/
def pyIntStr (n : Int) : String :=
  if n < 0 then String.mk ('-' :: natDigs n.natAbs) else String.mk (natDigs n.natAbs)

/-- Python floats are modelled as exact scaled decimals `m / 10 ^ e`
(binary64 rounding and the non-finite literals are not exercised by this
code and are not modelled). -/
structure PyDec where
  m : Int
  e : Nat
deriving DecidableEq, Repr

/-- Normalize a scaled decimal by removing trailing zeros of the mantissa
(mirroring the fact that Python floats identify `1.50` and `1.5`). -/
def normDec : Int → Nat → PyDec
  | m, 0 => ⟨m, 0⟩
  | m, e + 1 => if m % 10 = 0 then normDec (m / 10) e else ⟨m, e + 1⟩

/-- Combine a parsed mantissa/scale with an explicit exponent part. -/
def applyExp (m : Int) (e : Nat) (es : Int) (ev : Nat) : PyDec :=
  let n : Int := es * (ev : Int) - (e : Int)
  if 0 ≤ n then normDec (m * 10 ^ n.toNat) 0 else normDec m (-n).toNat

/-- Split a leading sign off a literal. -/
def signSplit (l : List Char) : Int × List Char :=
  match l with
  | [] => (1, [])
  | c :: r => if c = '+' then (1, r) else if c = '-' then (-1, r) else (1, c :: r)

/-- Parse the optional exponent suffix of a float literal. -/
def expParse (m : Int) (e : Nat) : List Char → Option PyDec
  | [] => some (normDec m e)
  | c :: r =>
    if c = 'e' || c = 'E' then
      let p := signSplit r
      match pyIntAbs p.2 with
      | some ev => some (applyExp m e p.1 ev)
      | none => none
    else none

/-- Python `float(s)`: optional whitespace and sign, integer digits,
optional fraction, optional exponent (at least one digit overall). -/
def pyFloatL (l : List Char) : Option PyDec :=
  let sp := signSplit (pyStripL l)
  let ir := digRun sp.2
  match ir.2.2 with
  | c :: r2 =>
    if c = '.' then
      let fr := digRun r2
      if ir.2.1 + fr.2.1 = 0 then none
      else expParse (sp.1 * ((ir.1 * 10 ^ fr.2.1 + fr.1 : Nat) : Int)) fr.2.1 fr.2.2
    else if ir.2.1 = 0 then none
    else expParse (sp.1 * (ir.1 : Int)) 0 (c :: r2)
  | [] =>
    if ir.2.1 = 0 then none
    else expParse (sp.1 * (ir.1 : Int)) 0 []

/-- Python `float(s)` on a `String`. -/
def pyFloat? (s : String) : Option PyDec := pyFloatL s.data

/-- Python `str(d)` for a (normalized) scaled decimal: always one decimal
point, no exponent notation (Python switches to exponent notation only
for magnitudes this code never produces). -/
def pyDecStr (d : PyDec) : String :=
  let sign := if d.m < 0 then "-" else ""
  let ds := natDigs d.m.natAbs
  if d.e = 0 then sign ++ String.mk ds ++ ".0"
  else
    let ds' := if ds.length ≤ d.e then List.replicate (d.e + 1 - ds.length) '0' ++ ds else ds
    sign ++ String.mk (ds'.take (ds'.length - d.e)) ++ "." ++ String.mk (ds'.drop (ds'.length - d.e))

/-! ### Dynamically typed dict values -/

/-- A Python value stored in one of the `final_dict` tables: the three
value types that occur are `str`, `int` and `float`. -/
inductive PyVal where
  | vStr (s : String)
  | vInt (n : Int)
  | vFloat (d : PyDec)
deriving DecidableEq, Repr

/-- The dynamic type of a stored value (`type(final_dict[key])`). -/
inductive PyTag where
  | tStr
  | tInt
  | tFloat
deriving DecidableEq, Repr

/-- `type(·)` of a stored value. -/
def tagOf : PyVal → PyTag
  | .vStr _ => .tStr
  | .vInt _ => .tInt
  | .vFloat _ => .tFloat

/-- `expected_type = type(cur); expected_type(v)` with
`except (ValueError, TypeError): pass`: coerce the raw directive value to
the dynamic type of the current entry, keeping the current entry
untouched when the coercion fails.  `str(v)` never fails. -/
def setCoerce (cur : PyVal) (v : String) : PyVal :=
  match cur with
  | .vStr _ => .vStr v
  | .vInt _ =>
    match pyInt? v with
    | some n => .vInt n
    | none => cur
  | .vFloat _ =>
    match pyFloat? v with
    | some d => .vFloat d
    | none => cur

/-- Python truthiness of a stored value (`if final_dict["pos_"]:`). -/
def pyTruthy : PyVal → Bool
  | .vStr s => !(s == "")
  | .vInt n => !(n == 0)
  | .vFloat d => !(d.m == 0)

/-- Python `str(v)` of a stored value (used by `f"--{k} {v}"`). -/
def pyValStr : PyVal → String
  | .vStr s => s
  | .vInt n => pyIntStr n
  | .vFloat d => pyDecStr d

/-- The string payload of a stored value (`_load_file_as_base64` is only
ever applied to `str` values; the other constructors are unreachable
there and map to the empty string). -/
def pyValAsStr : PyVal → String
  | .vStr s => s
  | _ => ""

/-! ### The web router's field table (`parse_prompt` in `images.py`)

`final_dict = {"pos_": "", "neg": "", "neg_": "", "model": "", "seed": -1,
"steps": 4, "width": 512, "height": 512, "count": 1, "length": 80,
"cfg": 1.0, "file": "", "tokens": 512}` — a dict with a fixed literal key
set, modelled as a record of dynamically typed values. -/

structure WTable where
  pos_ : PyVal
  neg : PyVal
  neg_ : PyVal
  model : PyVal
  seed : PyVal
  steps : PyVal
  width : PyVal
  height : PyVal
  count : PyVal
  length : PyVal
  cfg : PyVal
  file : PyVal
  tokens : PyVal
deriving DecidableEq, Repr

/-- The initial `final_dict` of `parse_prompt`. -/
def defaultW : WTable :=
  ⟨.vStr "", .vStr "", .vStr "", .vStr "", .vInt (-1), .vInt 4, .vInt 512,
   .vInt 512, .vInt 1, .vInt 80, .vFloat ⟨1, 0⟩, .vStr "", .vInt 512⟩

/-- The literal key list of the web router's `final_dict`, in insertion
(= serialization) order. -/
def wKeys : List String :=
  ["pos_", "neg", "neg_", "model", "seed", "steps", "width", "height",
   "count", "length", "cfg", "file", "tokens"]

/-- One iteration of the merge loop of `parse_prompt`:
`if key in final_dict: try: final_dict[key] = type(final_dict[key])(value)
except (ValueError, TypeError): pass`. -/
def applyDirectiveW (t : WTable) (kv : String × String) : WTable :=
  if kv.1 = "pos_" then { t with pos_ := setCoerce t.pos_ kv.2 }
  else if kv.1 = "neg" then { t with neg := setCoerce t.neg kv.2 }
  else if kv.1 = "neg_" then { t with neg_ := setCoerce t.neg_ kv.2 }
  else if kv.1 = "model" then { t with model := setCoerce t.model kv.2 }
  else if kv.1 = "seed" then { t with seed := setCoerce t.seed kv.2 }
  else if kv.1 = "steps" then { t with steps := setCoerce t.steps kv.2 }
  else if kv.1 = "width" then { t with width := setCoerce t.width kv.2 }
  else if kv.1 = "height" then { t with height := setCoerce t.height kv.2 }
  else if kv.1 = "count" then { t with count := setCoerce t.count kv.2 }
  else if kv.1 = "length" then { t with length := setCoerce t.length kv.2 }
  else if kv.1 = "cfg" then { t with cfg := setCoerce t.cfg kv.2 }
  else if kv.1 = "file" then { t with file := setCoerce t.file kv.2 }
  else if kv.1 = "tokens" then { t with tokens := setCoerce t.tokens kv.2 }
  else t

/-- The merge loop of `parse_prompt` over a (deduplicated) override list. -/
def mergeW (t : WTable) (ovs : List (String × String)) : WTable :=
  ovs.foldl applyDirectiveW t

/-- `final_dict.items()` with each value rendered by `str` (the order is
the dict insertion order, which never changes: keys are only updated). -/
def wItems (t : WTable) : List (String × String) :=
  [("pos_", pyValStr t.pos_), ("neg", pyValStr t.neg), ("neg_", pyValStr t.neg_),
   ("model", pyValStr t.model), ("seed", pyValStr t.seed), ("steps", pyValStr t.steps),
   ("width", pyValStr t.width), ("height", pyValStr t.height), ("count", pyValStr t.count),
   ("length", pyValStr t.length), ("cfg", pyValStr t.cfg), ("file", pyValStr t.file),
   ("tokens", pyValStr t.tokens)]

/-- `" ".join(f"--{k} {v}" for k, v in items)`. -/
def serialDirs (ps : List (String × String)) : String :=
  joinSpace (ps.map (fun p => "--" ++ p.1 ++ " " ++ p.2))

/-- The `size` post-processing of `parse_prompt`: consult the *user-pass*
override dict for the literal key `size`; lowercase and split on `"x"`;
unpack into exactly two parts (else `ValueError` before any assignment);
assign `width` from the first part, then `height` from the second — an
exception while parsing the second part leaves `width` already updated. -/
def sizeStep (ovs : List (String × String)) (t : WTable) : WTable :=
  match ovs.lookup "size" with
  | none => t
  | some v =>
    match splitOnC 'x' (lowerL v.data) with
    | [a, b] =>
      match pyIntL a with
      | none => t
      | some w =>
        let t' := { t with width := PyVal.vInt w }
        match pyIntL b with
        | some h => { t' with height := PyVal.vInt h }
        | none => t'
    | _ => t

/-- The `seed` post-processing of `parse_prompt`:
`seed_val = int(final_dict["seed"]); final_dict["seed"] = random value if
seed_val == -1 else seed_val`, with `except ValueError: pass`.  The random
draw is passed in as the `rng` parameter (the caller supplies
`random.randint(0, 2**31 - 1)`). -/
def seedStep (rng : Int) (t : WTable) : WTable :=
  match t.seed with
  | .vInt n => if n = -1 then { t with seed := .vInt rng } else { t with seed := .vInt n }
  | .vStr s =>
    match pyInt? s with
    | some n => if n = -1 then { t with seed := .vInt rng } else { t with seed := .vInt n }
    | none => t
  | .vFloat d =>
    let n := Int.tdiv d.m (10 ^ d.e)
    if n = -1 then { t with seed := .vInt rng } else { t with seed := .vInt n }

/-! ### Template documents -/

/-- A node of a loaded JSON template: either a non-dict value (skipped by
both template loops) or a dict with a `class_type` and an `inputs`
mapping whose relevant entries are strings. -/
inductive JNode where
  | other
  | node (classType : String) (inputs : List (String × String))
deriving DecidableEq, Repr

/-- A loaded template document: node id to node, in document order. -/
abbrev Template := List (String × JNode)

/-- The first template loop of `parse_prompt`: the `command_text` of the
*last* `TextCommandParser` node that has one (each hit overwrites
`default_prompt`), or the empty string. -/
def extractDefaultPrompt (tmpl : Template) : String :=
  tmpl.foldl
    (fun acc ent =>
      match ent.2 with
      | .node ct inputs =>
        if ct = "TextCommandParser" then
          match inputs.lookup "command_text" with
          | some s => s
          | none => acc
        else acc
      | .other => acc)
    ""

/-- The second template loop of `parse_prompt`, applied to one node:
write the reconstructed command text into every `TextCommandParser` node
that has a `command_text` input. -/
def setCommandText (newText : String) (ent : String × JNode) : String × JNode :=
  match ent.2 with
  | .node ct inputs =>
    if ct = "TextCommandParser" && (inputs.lookup "command_text").isSome then
      (ent.1, .node ct (inputs.map (fun kv => if kv.1 = "command_text" then (kv.1, newText) else kv)))
    else ent
  | .other => ent

/-- The second template loop of `parse_prompt` over the whole document. -/
def updateTemplate (tmpl : Template) (newText : String) : Template :=
  tmpl.map (setCommandText newText)

/-! ### Template selection -/

/-- `JSON_DIR = "/app/backend/data/json_templates/"`. -/
def JSON_DIR : String := "/app/backend/data/json_templates/"

/-- POSIX `os.path.basename` on a character list: everything after the
last slash. -/
def basenameL (l : List Char) : List Char := (l.reverse.takeWhile (· ≠ '/')).reverse

/-- POSIX `os.path.basename`. -/
def posixBasename (s : String) : String := String.mk (basenameL s.data)

/-- POSIX `os.path.join` for two arguments. -/
def pjoin (a b : String) : String :=
  if swith b "/" then b
  else if a = "" || ewith a "/" then a ++ b
  else a ++ "/" ++ b

/-- Template selection in `parse_prompt` (the filesystem is the `fs`
parameter, standing for `os.path.exists`): split the prompt; if the first
token equals its own basename and `<token>.json` exists under `JSON_DIR`,
select it and drop the token from the prompt; otherwise select
`txt2img.json` and keep the prompt unchanged.  Returns
`(json_filename, prompt)`. -/
def selectTemplate (fs : String → Bool) (prompt : String) : String × String :=
  match pySplit (pyStrip prompt) with
  | [] => ("txt2img.json", prompt)
  | w :: rest =>
    let candidate := pyStrip w
    if posixBasename candidate = candidate then
      if fs (pjoin JSON_DIR (candidate ++ ".json")) then
        (candidate ++ ".json", joinSpace rest)
      else ("txt2img.json", prompt)
    else ("txt2img.json", prompt)

/-! ### The `parse_prompt` pipeline, staged -/

/-- Stage: selected `(json_filename, prompt)` of `parse_prompt`. -/
def ppSelected (fs : String → Bool) (prompt0 : String) : String × String :=
  selectTemplate fs prompt0

/-- Stage: the loaded template document (the loader parameter stands for
`json.load`; a missing or malformed file yields the empty document). -/
def ppTemplate (fs : String → Bool) (tload : String → Option Template)
    (prompt0 : String) : Template :=
  (tload (pjoin JSON_DIR (ppSelected fs prompt0).1)).getD []

/-- Stage: pass 1 — merge the template-embedded default directives onto
the fresh default table (the residual of `default_prompt` is computed by
the code but never used afterwards, so it is not modelled). -/
def ppPassOne (fs : String → Bool) (tload : String → Option Template)
    (prompt0 : String) : WTable :=
  mergeW defaultW (pyDict (findallP (extractDefaultPrompt (ppTemplate fs tload prompt0))))

/-- Stage: the user-prompt override dict (pass 2). -/
def ppUserOvs (fs : String → Bool) (prompt0 : String) : List (String × String) :=
  pyDict (findallP (ppSelected fs prompt0).2)

/-- Stage: the final positive prompt text (the directive-stripped user
prompt). -/
def ppPosText (fs : String → Bool) (prompt0 : String) : String :=
  stripResidual (ppSelected fs prompt0).2

/-- Stage: pass 2 — merge the user overrides onto the pass-1 baseline. -/
def ppMerged (fs : String → Bool) (tload : String → Option Template)
    (prompt0 : String) : WTable :=
  mergeW (ppPassOne fs tload prompt0) (ppUserOvs fs prompt0)

/-- Stage: after the `size` post-processing. -/
def ppSized (fs : String → Bool) (tload : String → Option Template)
    (prompt0 : String) : WTable :=
  sizeStep (ppUserOvs fs prompt0) (ppMerged fs tload prompt0)

/-- Stage: the final field table (after the `seed` post-processing). -/
def ppTable (fs : String → Bool) (tload : String → Option Template)
    (rng : Int) (prompt0 : String) : WTable :=
  seedStep rng (ppSized fs tload prompt0)

/-- Stage: the reconstructed anchor text
`prompt + " " + " ".join(f"--{k} {v}" for k, v in final_dict.items())`. -/
def ppNewCmd (fs : String → Bool) (tload : String → Option Template)
    (rng : Int) (prompt0 : String) : String :=
  ppPosText fs prompt0 ++ " " ++ serialDirs (wItems (ppTable fs tload rng prompt0))

/-- The result of `parse_prompt`: the final table, the residual positive
text, the reconstructed anchor text, and the updated template document
(the `json.dumps` serialization of the document is not modelled). -/
structure WResult where
  table : WTable
  posText : String
  newCommandText : String
  template : Template
deriving DecidableEq, Repr

/-- `parse_prompt(prompt)` with the filesystem, the template loader and
the random draw passed explicitly. -/
def parse_prompt (fs : String → Bool) (tload : String → Option Template)
    (rng : Int) (prompt0 : String) : WResult :=
  { table := ppTable fs tload rng prompt0
    posText := ppPosText fs prompt0
    newCommandText := ppNewCmd fs tload rng prompt0
    template := updateTemplate (ppTemplate fs tload prompt0) (ppNewCmd fs tload rng prompt0) }

/-! ### The node's field table (`TextCommandParser.parse_text` in `nodes.py`) -/

/-- The default `--file` value of the node (a placeholder image URL). -/
def catFileDefault : String :=
  "https://upload.wikimedia.org/wikipedia/commons/thumb/1/15/Cat_August_2010-4.jpg/1920px-Cat_August_2010-4.jpg"

/-- `final_dict` of `parse_text`: same keys as the router plus `pos`,
with different defaults (`seed` 0, `steps` 20, `file` a placeholder URL). -/
structure NTable where
  pos : PyVal
  pos_ : PyVal
  neg : PyVal
  neg_ : PyVal
  model : PyVal
  seed : PyVal
  steps : PyVal
  width : PyVal
  height : PyVal
  count : PyVal
  length : PyVal
  cfg : PyVal
  file : PyVal
  tokens : PyVal
deriving DecidableEq, Repr

/-- The initial `final_dict` of `parse_text`. -/
def defaultN : NTable :=
  ⟨.vStr "", .vStr "", .vStr "", .vStr "", .vStr "", .vInt 0, .vInt 20, .vInt 512,
   .vInt 512, .vInt 1, .vInt 80, .vFloat ⟨1, 0⟩, .vStr catFileDefault, .vInt 512⟩

/-- One iteration of the merge loop of `parse_text`. -/
def applyDirectiveN (t : NTable) (kv : String × String) : NTable :=
  if kv.1 = "pos" then { t with pos := setCoerce t.pos kv.2 }
  else if kv.1 = "pos_" then { t with pos_ := setCoerce t.pos_ kv.2 }
  else if kv.1 = "neg" then { t with neg := setCoerce t.neg kv.2 }
  else if kv.1 = "neg_" then { t with neg_ := setCoerce t.neg_ kv.2 }
  else if kv.1 = "model" then { t with model := setCoerce t.model kv.2 }
  else if kv.1 = "seed" then { t with seed := setCoerce t.seed kv.2 }
  else if kv.1 = "steps" then { t with steps := setCoerce t.steps kv.2 }
  else if kv.1 = "width" then { t with width := setCoerce t.width kv.2 }
  else if kv.1 = "height" then { t with height := setCoerce t.height kv.2 }
  else if kv.1 = "count" then { t with count := setCoerce t.count kv.2 }
  else if kv.1 = "length" then { t with length := setCoerce t.length kv.2 }
  else if kv.1 = "cfg" then { t with cfg := setCoerce t.cfg kv.2 }
  else if kv.1 = "file" then { t with file := setCoerce t.file kv.2 }
  else if kv.1 = "tokens" then { t with tokens := setCoerce t.tokens kv.2 }
  else t

/-- The merge loop of `parse_text`. -/
def mergeN (t : NTable) (ovs : List (String × String)) : NTable :=
  ovs.foldl applyDirectiveN t

/-- `", ".join([a, b]).strip(", ")` on two stored values (both operands
are always `str`; `", ".join` on a non-string would raise `TypeError`,
which is unreachable here). -/
def joinCS (a b : PyVal) : PyVal :=
  match a, b with
  | .vStr x, .vStr y => .vStr (stripCommaSpace (x ++ ", " ++ y))
  | _, _ => a

/-- Stage: the override dict of `parse_text`. -/
def ptOvs (cmd : String) : List (String × String) := pyDict (findallP cmd)

/-- Stage: the table of `parse_text` just before the merge loop —
`final_dict["pos"]` has been set to the directive-stripped residual. -/
def ptBase (cmd : String) : NTable :=
  { defaultN with pos := .vStr (stripResidual cmd) }

/-- Stage: the table of `parse_text` after the merge loop. -/
def ptMerged (cmd : String) : NTable := mergeN (ptBase cmd) (ptOvs cmd)

/-- The two append lines of `parse_text`:
`if final_dict["pos_"]: final_dict["pos"] = ", ".join(...).strip(", ")`
and the same for `neg_` into `neg`. -/
def appendStepN (t : NTable) : NTable :=
  let t1 := if pyTruthy t.pos_ then { t with pos := joinCS t.pos t.pos_ } else t
  if pyTruthy t1.neg_ then { t1 with neg := joinCS t1.neg t1.neg_ } else t1

/-! ### File resolution (`_load_file_as_base64`) -/

/-- An HTTP response as far as `_load_file_as_base64` inspects it. -/
structure HttpResp where
  status : Nat
  contentType : Option String
  content : List Nat

/-- The ambient world of `parse_text`: the network
(`requests.get(url, timeout, headers)`, `none` standing for a transport
error or timeout), `os.path.exists`, and reading a file's bytes (`none`
standing for a read error). -/
structure FileEnv where
  httpGet : String → Nat → Option HttpResp
  pathExists : String → Bool
  readFile : String → Option (List Nat)

/-- The standard base64 alphabet. -/
def b64Alphabet : List Char :=
  "ABCDEFGHIJKLMNOPQRSTUVWXYZabcdefghijklmnopqrstuvwxyz0123456789+/".data

/-- The base64 character at an index below 64. -/
def b64CharAt (i : Nat) : Char := b64Alphabet.getD i 'A'

/-- `base64.b64encode` on a byte list. -/
def b64encodeL : List Nat → List Char
  | [] => []
  | [a] => [b64CharAt (a / 4), b64CharAt (a % 4 * 16), '=', '=']
  | [a, b] => [b64CharAt (a / 4), b64CharAt (a % 4 * 16 + b / 16), b64CharAt (b % 16 * 4), '=']
  | a :: b :: c :: rest =>
    b64CharAt (a / 4) :: b64CharAt (a % 4 * 16 + b / 16) ::
      b64CharAt (b % 16 * 4 + c / 64) :: b64CharAt (c % 64) :: b64encodeL rest

/-- `base64.b64encode(...).decode("utf-8")`. -/
def b64encode (bs : List Nat) : String := String.mk (b64encodeL bs)

/-- A base64 alphabet character (strict validation rejects all others). -/
def isB64Char (c : Char) : Bool := c.isAlphanum || c = '+' || c = '/'

/-- Whether a pattern occurs as a contiguous subsequence
(`"image" in content_type`). -/
def containsSeq (pat : List Char) : List Char → Bool
  | [] => pat.isEmpty
  | c :: r => List.isPrefixOf pat (c :: r) || containsSeq pat r

/-- `base64.b64decode(s, validate=True)` succeeding: only alphabet
characters before at most two trailing `=`, and a total length that is a
multiple of four. -/
def strictB64Valid (s : String) : Bool :=
  let l := s.data
  let pad := (l.reverse.takeWhile (· = '=')).length
  pad ≤ 2 && (l.take (l.length - pad)).all isB64Char && l.length % 4 == 0

/-- `TextCommandParser._load_file_as_base64`: URL fetch (10-second
timeout; requires a successful status — `raise_for_status` — and a
`Content-Type` containing `image`), else existing local file, else strict
base64 validation, with every failure mapped to the empty string. -/
def load_file_as_base64 (env : FileEnv) (fileValue : String) : String :=
  if fileValue = "" then ""
  else if swith fileValue "http://" || swith fileValue "https://" then
    match env.httpGet fileValue 10 with
    | none => ""
    | some r =>
      if 400 ≤ r.status then ""
      else if containsSeq "image".data (r.contentType.getD "").data then b64encode r.content
      else ""
  else if env.pathExists fileValue then
    match env.readFile fileValue with
    | some bs => b64encode bs
    | none => ""
  else if strictB64Valid fileValue then fileValue
  else ""

/-- Claim-side description of the resolver (C8, modelled on the spec's
words): URL priority, then existing local path, then base64 validation,
total with `""` on failure. -/
def resolveSpecDesc (env : FileEnv) (fv : String) : String :=
  if swith fv "http://" || swith fv "https://" then
    match env.httpGet fv 10 with
    | some r =>
      if r.status < 400 && containsSeq "image".data (r.contentType.getD "").data then
        b64encode r.content
      else ""
    | none => ""
  else if env.pathExists fv then
    match env.readFile fv with
    | some bs => b64encode bs
    | none => ""
  else if strictB64Valid fv then fv
  else ""

/-- `parse_text(command_text)`: merge, append fields, then resolve the
`file` value.  The returned tuple of the Python method is exactly the
field list of this table (in the documented output order). -/
def parse_text (env : FileEnv) (cmd : String) : NTable :=
  let t := appendStepN (ptMerged cmd)
  { t with file := .vStr (load_file_as_base64 env (pyValAsStr t.file)) }

/-! ### Output-path confinement (`sanitize_base_path`) -/

/-- Number of initial slashes retained by POSIX `os.path.normpath`
(two slashes are special, three or more collapse to one). -/
def leadSlashes (l : List Char) : Nat :=
  if List.isPrefixOf ['/', '/'] l && !List.isPrefixOf ['/', '/', '/'] l then 2
  else if List.isPrefixOf ['/'] l then 1
  else 0

/-- Join path components with slashes. -/
def icSlash : List (List Char) → List Char
  | [] => []
  | [w] => w
  | w :: x :: ws => w ++ '/' :: icSlash (x :: ws)

/-- One step of `os.path.normpath`'s component walk. -/
def normStep (init : Bool) (acc : List (List Char)) (comp : List Char) : List (List Char) :=
  if comp = [] || comp = ['.'] then acc
  else if comp ≠ ['.', '.'] then acc ++ [comp]
  else
    match acc with
    | [] => if init then [] else [comp]
    | _ =>
      if acc.getLast? = some ['.', '.'] then acc ++ [comp]
      else acc.dropLast

/-- POSIX `os.path.normpath` on a character list. -/
def normpathL (l : List Char) : List Char :=
  if l = [] then ['.']
  else
    let init := leadSlashes l
    let comps := (splitOnC '/' l).foldl (normStep (init > 0)) []
    let core := List.replicate init '/' ++ icSlash comps
    if core = [] then ['.'] else core

/-- POSIX `os.path.normpath`. -/
def normpath (s : String) : String := String.mk (normpathL s.data)

/-- POSIX `os.path.abspath` with the working directory passed explicitly
(`sanitize_base_path` only ever reaches it with absolute inputs). -/
def abspathP (cwd : String) (p : String) : String :=
  if swith p "/" then normpath p else normpath (pjoin cwd p)

/-- The path components relevant to `os.path.commonpath`: split on
slashes, dropping empty components and `.`. -/
def filtComps (l : List Char) : List (List Char) :=
  (splitOnC '/' l).filter (fun w => !(w == []) && !(w == ['.']))

/-- Longest common stem of two component lists. -/
def commonStem : List (List Char) → List (List Char) → List (List Char)
  | a :: as, b :: bs => if a = b then a :: commonStem as bs else []
  | _, _ => []

/-- POSIX `os.path.commonpath` for two absolute paths. -/
def commonpath2 (a b : String) : String :=
  String.mk ('/' :: icSlash (commonStem (filtComps a.data) (filtComps b.data)))

/-- `allowed_root = os.path.abspath("/basedir/output")`. -/
def allowedRoot : String := "/basedir/output"

/-- The prefixing part of `sanitize_base_path`: normalize, turn
backslashes into slashes, and put the path under `/basedir/output`
unless it already starts with that string. -/
def sanitizePrefixed (bp : String) : String :=
  let bp1 := String.mk ((normpathL bp.data).map (fun c => if c = '\\' then '/' else c))
  if swith bp1 "/basedir/output" then bp1
  else pjoin "/basedir/output" (lstripSlash bp1)

/-- `sanitize_base_path`: confine the candidate under `/basedir/output`,
raising `ValueError` (modelled as `Except.error`) when the absolute form
escapes the allowed root.  The working directory is a parameter of the
embedding (it is never relevant: the checked path is always absolute). -/
def sanitize_base_path (cwd : String) (basePath : String) : Except String String :=
  let a := abspathP cwd (sanitizePrefixed basePath)
  if commonpath2 a (abspathP cwd allowedRoot) = abspathP cwd allowedRoot then Except.ok a
  else Except.error "Path must remain inside /basedir/output"

/-- Claim-side predicate (C9): the path is the allowed root or lies
strictly under it. -/
def liesUnderB (p root : String) : Bool :=
  p == root || List.isPrefixOf (root ++ "/").data p.data

/-! ### Claim-side predicates and helper data -/

/-- Whether two adjacent `-` occur somewhere in the list (the start of a
`--` delimiter). -/
def hasDD : List Char → Bool
  | c :: d :: r => (c = '-' && d = '-') || hasDD (d :: r)
  | _ => false

/-- A string value that serializes and re-tokenizes cleanly: no `--`
or em dash delimiter inside, no newline, and already stripped. -/
def goodVal (s : String) : Bool :=
  !hasDD s.data && decide ('—' ∉ s.data) && decide ('\n' ∉ s.data) && pyStrip s == s

/-- A positive-prompt text in which no directive can start: no `--` and
no em dash. -/
def cleanPos (s : String) : Bool :=
  !hasDD s.data && decide ('—' ∉ s.data)

/-- A normalized, slash-free path component (the shape of everything that
survives `normpath`'s component walk on an absolute path). -/
def cleanComp (w : List Char) : Prop :=
  w ≠ [] ∧ w ≠ ['.'] ∧ w ≠ ['.', '.'] ∧ '/' ∉ w

/-- The typing invariant of the web router's table: every entry has the
type declared by its field spec. -/
def wellTypedW (t : WTable) : Bool :=
  tagOf t.pos_ == .tStr && tagOf t.neg == .tStr && tagOf t.neg_ == .tStr &&
  tagOf t.model == .tStr && tagOf t.seed == .tInt && tagOf t.steps == .tInt &&
  tagOf t.width == .tInt && tagOf t.height == .tInt && tagOf t.count == .tInt &&
  tagOf t.length == .tInt && tagOf t.cfg == .tFloat && tagOf t.file == .tStr &&
  tagOf t.tokens == .tInt

/-- The typing invariant of the node's table. -/
def wellTypedN (t : NTable) : Bool :=
  tagOf t.pos == .tStr && tagOf t.pos_ == .tStr && tagOf t.neg == .tStr &&
  tagOf t.neg_ == .tStr && tagOf t.model == .tStr && tagOf t.seed == .tInt &&
  tagOf t.steps == .tInt && tagOf t.width == .tInt && tagOf t.height == .tInt &&
  tagOf t.count == .tInt && tagOf t.length == .tInt && tagOf t.cfg == .tFloat &&
  tagOf t.file == .tStr && tagOf t.tokens == .tInt

/-- Re-parsing reconstructed directive text "through the same
tokenize-and-merge procedure" (C5): tokenize, deduplicate, merge onto the
registry defaults, then the `size` and `seed` post-processing steps. -/
def reParse (rng : Int) (text : String) : WTable :=
  let ovs := pyDict (findallP text)
  seedStep rng (sizeStep ovs (mergeW defaultW ovs))

/-- Build a web-router table from the thirteen field payloads (with the
types declared by the field specs). -/
def mkW (s1 s2 s3 s4 : String) (n5 n6 n7 n8 n9 n10 : Int) (d : PyDec)
    (s12 : String) (n13 : Int) : WTable :=
  ⟨.vStr s1, .vStr s2, .vStr s3, .vStr s4, .vInt n5, .vInt n6, .vInt n7,
   .vInt n8, .vInt n9, .vInt n10, .vFloat d, .vStr s12, .vInt n13⟩

/-- Claim-side view of a template entry (C10): the `command_text` of a
`TextCommandParser` node that has one. -/
def anchorCT (ent : String × JNode) : Option String :=
  match ent.2 with
  | .node ct inputs => if ct = "TextCommandParser" then inputs.lookup "command_text" else none
  | .other => none

/-- Claim-side description (C10): the `command_text` of the *last* anchor
node in document order, or the empty string. -/
def lastAnchorText (tmpl : Template) : String :=
  ((tmpl.filterMap anchorCT).getLast?).getD ""

/-- A filesystem on which nothing exists (for concrete instances). -/
def fsNone : String → Bool := fun _ => false

/-- A template loader that always fails (every load yields the empty
document). -/
def tlNone : String → Option Template := fun _ => none

/-- An ambient world in which every fetch and read fails. -/
def envNone : FileEnv := ⟨fun _ _ => none, fun _ => false, fun _ => none⟩

/-- A template loader returning a single-anchor document whose embedded
default directives are `--size 100x200`. -/
def tlSize : String → Option Template :=
  fun _ => some [("1", .node "TextCommandParser" [("command_text", "--size 100x200")])]

/-! ## Lemmas about the scanner -/

theorem dropDelim_length {l r : List Char} (h : dropDelim l = some r) :
    r.length < l.length := by
  match l with
  | [] => simp [dropDelim] at h
  | [c] =>
    simp only [dropDelim] at h
    split at h
    · cases h; simp
    · cases h
  | c :: d :: t =>
    simp only [dropDelim] at h
    split at h
    · cases h; simp only [List.length_cons]; omega
    · split at h
      · cases h; simp only [List.length_cons]; omega
      · cases h

theorem lazyVal_length {l : List Char} :
    ∀ {v rest}, lazyVal l = some (v, rest) → rest.length ≤ l.length := by
  induction l with
  | nil =>
    intro v rest h
    simp only [lazyVal, Option.some.injEq, Prod.mk.injEq] at h
    simp [← h.2]
  | cons c r ih =>
    intro v rest h
    simp only [lazyVal] at h
    split at h
    · cases h; simp
    · split at h
      · cases h
      · cases hlv : lazyVal r with
        | none => rw [hlv] at h; cases h
        | some p =>
          rw [hlv] at h
          cases p with
          | mk v' rest' =>
            cases h
            have := ih hlv
            simp only [List.length_cons]
            omega

theorem dropWhile_length_lt {p : Char → Bool} {l : List Char}
    (h : l.takeWhile p ≠ []) : (l.dropWhile p).length < l.length := by
  cases l with
  | nil => simp at h
  | cons a t =>
    by_cases hp : p a
    · rw [List.dropWhile_cons_of_pos hp]
      have := (List.dropWhile_suffix (l := t) p).sublist.length_le
      simp only [List.length_cons]
      omega
    · rw [List.takeWhile_cons_of_neg hp] at h
      exact absurd rfl h

theorem tryMatch_length {l : List Char} {k : String} {v : Option String}
    {after : List Char} (h : tryMatch l = some (k, v, after)) :
    after.length < l.length := by
  cases hd : dropDelim l with
  | none =>
    simp only [tryMatch, hd] at h
    exact Option.noConfusion h
  | some afterD =>
    simp only [tryMatch, hd] at h
    have hdl := dropDelim_length hd
    by_cases hk : afterD.takeWhile isWordChar = []
    · rw [if_pos hk] at h; exact Option.noConfusion h
    · rw [if_neg hk] at h
      have hak : (afterD.dropWhile isWordChar).length < afterD.length :=
        dropWhile_length_lt hk
      split at h
      · simp only [Option.some.injEq, Prod.mk.injEq] at h
        obtain ⟨-, -, h3⟩ := h
        subst h3
        simp only [List.length_nil]
        omega
      · rename_i c r heq
        rw [heq] at hak
        simp only [List.length_cons] at hak
        split at h
        · split at h
          · rename_i v' rest' heq'
            simp only [Option.some.injEq, Prod.mk.injEq] at h
            obtain ⟨-, -, h3⟩ := h
            subst h3
            have := lazyVal_length heq'
            omega
          · split at h
            · simp only [Option.some.injEq, Prod.mk.injEq] at h
              obtain ⟨-, -, h3⟩ := h
              subst h3
              rw [heq]
              simp only [List.length_cons]
              omega
            · exact Option.noConfusion h
        · split at h
          · simp only [Option.some.injEq, Prod.mk.injEq] at h
            obtain ⟨-, -, h3⟩ := h
            subst h3
            rw [heq]
            simp only [List.length_cons]
            omega
          · exact Option.noConfusion h

theorem scanGo_fuel {f g : Nat} {l : List Char} (hf : l.length ≤ f)
    (hg : l.length ≤ g) : scanGo f l = scanGo g l := by
  induction f generalizing g l with
  | zero =>
    have : l = [] := List.eq_nil_of_length_eq_zero (Nat.le_zero.mp hf)
    subst this
    cases g <;> rfl
  | succ f ih =>
    cases l with
    | nil => cases g <;> rfl
    | cons c rest =>
      cases g with
      | zero => simp at hg
      | succ f'' =>
        cases hm : tryMatch (c :: rest) with
        | some t =>
          obtain ⟨k, v, after⟩ := t
          have hlen := tryMatch_length hm
          simp only [List.length_cons] at hf hg hlen
          simp only [scanGo, hm]
          rw [ih (l := after) (g := f'') (by omega) (by omega)]
        | none =>
          simp only [List.length_cons] at hf hg
          simp only [scanGo, hm]
          rw [ih (l := rest) (g := f'') (by omega) (by omega)]

theorem scanList_nil : scanList [] = ([], []) := rfl

theorem scanList_cons_match {c : Char} {rest : List Char} {k : String}
    {v : Option String} {after : List Char}
    (h : tryMatch (c :: rest) = some (k, v, after)) :
    scanList (c :: rest) = ((k, v) :: (scanList after).1, (scanList after).2) := by
  have hlen := tryMatch_length h
  simp only [List.length_cons] at hlen
  unfold scanList
  simp only [List.length_cons, scanGo, h]
  rw [scanGo_fuel (f := rest.length) (g := after.length) (by omega) (by omega)]

theorem scanList_cons_none {c : Char} {rest : List Char}
    (h : tryMatch (c :: rest) = none) :
    scanList (c :: rest) = ((scanList rest).1, c :: (scanList rest).2) := by
  unfold scanList
  simp only [List.length_cons, scanGo, h]

theorem tryMatch_none_of_not_delim {l : List Char} (h : startsDelim l = false) :
    tryMatch l = none := by
  cases hv : dropDelim l with
  | none => simp [tryMatch, hv]
  | some r => rw [startsDelim, hv] at h; simp at h

theorem startsDelim_eq_true {c : Char} {w : List Char}
    (h : startsDelim (c :: w) = true) :
    c = '—' ∨ (c = '-' ∧ ∃ t, w = '-' :: t) := by
  cases w with
  | nil =>
    simp only [startsDelim, dropDelim] at h
    split at h
    · left; assumption
    · simp at h
  | cons d t =>
    simp only [startsDelim, dropDelim] at h
    split at h
    · rename_i hcd
      simp only [Bool.and_eq_true, decide_eq_true_eq] at hcd
      exact Or.inr ⟨hcd.1, t, by rw [hcd.2]⟩
    · split at h
      · left; assumption
      · simp at h

theorem hasDD_cons_false {c : Char} {u : List Char} (h : hasDD (c :: u) = false) :
    hasDD u = false := by
  cases u with
  | nil => rfl
  | cons d r =>
    simp only [hasDD, Bool.or_eq_false_iff] at h
    exact h.2

/-- Scanning text in which no delimiter can start (no adjacent `--`, no
em dash, and the continuation does not begin with `-`) finds no match in
that region: the matches are those of the continuation, and the region
passes through into the residual verbatim. -/
theorem scanList_append_clean {u rest : List Char}
    (h1 : hasDD u = false) (h2 : '—' ∉ u)
    (h3 : ∀ x, rest.head? = some x → x ≠ '-') :
    scanList (u ++ rest) = ((scanList rest).1, u ++ (scanList rest).2) := by
  induction u with
  | nil => simp
  | cons c u' ih =>
    have hnd : startsDelim (c :: (u' ++ rest)) = false := by
      cases hs : startsDelim (c :: (u' ++ rest)) with
      | false => rfl
      | true =>
        rcases startsDelim_eq_true hs with hem | ⟨hc, t, ht⟩
        · exact absurd (hem ▸ List.mem_cons_self c u') h2
        · cases u' with
          | nil =>
            simp only [List.nil_append] at ht
            have : rest.head? = some '-' := by rw [ht]; rfl
            exact absurd rfl (h3 '-' this)
          | cons d u'' =>
            simp only [List.cons_append, List.cons.injEq] at ht
            rw [hasDD, hc, ht.1] at h1
            simp at h1
    rw [List.cons_append, scanList_cons_none (tryMatch_none_of_not_delim hnd)]
    have ih' := ih (hasDD_cons_false h1) (fun hm => h2 (List.mem_cons_of_mem c hm))
    rw [ih']
    simp

/-! ## Scanning serialized directive text (round-trip support) -/

theorem startsDelim_cons_false {c : Char} {w : List Char}
    (hc : c ≠ '—') (hw : c = '-' → ∀ x, w.head? = some x → x ≠ '-') :
    startsDelim (c :: w) = false := by
  cases hs : startsDelim (c :: w) with
  | false => rfl
  | true =>
    rcases startsDelim_eq_true hs with hem | ⟨hd, t, ht⟩
    · exact absurd hem hc
    · exact absurd rfl (hw hd '-' (by rw [ht]; rfl))

theorem startsDelim_drop_false {v rest : List Char} (h1 : hasDD v = false)
    (h2 : '—' ∉ v) (h4 : v.getLast? = some '-' → rest.head? ≠ some '-') :
    ∀ i, i < v.length → startsDelim (v.drop i ++ rest) = false := by
  induction v with
  | nil => intro i hi; simp at hi
  | cons c v' ih =>
    intro i hi
    cases i with
    | zero =>
      simp only [List.drop_zero, List.cons_append]
      apply startsDelim_cons_false
      · intro hc; exact h2 (hc ▸ List.mem_cons_self c v')
      · intro hc x hx
        cases v' with
        | nil =>
          intro hx'
          subst hx'
          exact h4 (by rw [hc]; rfl) hx
        | cons d v'' =>
          have hd : x = d := by
            simp only [List.cons_append, List.head?_cons, Option.some.injEq] at hx
            exact hx.symm
          subst hd
          intro hx'
          rw [hasDD, hc, hx'] at h1
          simp at h1
    | succ i' =>
      simp only [List.drop_succ_cons]
      apply ih (hasDD_cons_false h1) (fun hm => h2 (List.mem_cons_of_mem c hm))
      · intro hL
        cases v' with
        | nil => exact Option.noConfusion hL
        | cons a t =>
          exact h4 (by rw [List.getLast?_cons_cons]; exact hL)
      · simp only [List.length_cons] at hi
        omega

theorem lookaheadOk_false_inside {v rest : List Char} (h1 : hasDD v = false)
    (h2 : '—' ∉ v) (h3 : '\n' ∉ v)
    (h4 : v.getLast? = some '-' → rest.head? ≠ some '-') :
    ∀ i, i < v.length → lookaheadOk (v.drop i ++ rest) = false := by
  intro i hi
  have hsd := startsDelim_drop_false h1 h2 h4 i hi
  have hne : v.drop i ≠ [] := by
    intro h
    have := List.drop_eq_nil_iff.mp h
    omega
  have hw_ne : v.drop i ++ rest ≠ [] := fun h => hne (List.append_eq_nil.mp h).1
  have hw_nl : v.drop i ++ rest ≠ ['\n'] := by
    intro h
    cases hd : v.drop i with
    | nil => exact hne hd
    | cons a t =>
      rw [hd] at h
      simp only [List.cons_append, List.cons.injEq] at h
      apply h3
      have ha : a ∈ v.drop i := by rw [hd]; exact List.mem_cons_self a t
      exact h.1 ▸ List.mem_of_mem_drop ha
  rw [lookaheadOk, hsd]
  simp [hw_ne, hw_nl]

theorem lazyVal_clean {v rest : List Char}
    (hstop : ∀ i, i < v.length → lookaheadOk (v.drop i ++ rest) = false)
    (hnl : '\n' ∉ v) (hok : lookaheadOk rest = true) :
    lazyVal (v ++ rest) = some (v, rest) := by
  induction v with
  | nil =>
    simp only [List.nil_append]
    cases rest with
    | nil => rfl
    | cons c r => simp [lazyVal, hok]
  | cons c v' ih =>
    have h0 := hstop 0 (by simp)
    simp only [List.drop_zero, List.cons_append] at h0
    rw [List.cons_append, lazyVal]
    rw [if_neg (by simp [h0])]
    rw [if_neg (show ¬c = '\n' from fun hc => hnl (by subst hc; exact List.mem_cons_self _ _))]
    rw [ih (fun i hi => hstop (i + 1) (by simp only [List.length_cons]; omega))
      (fun hm => hnl (List.mem_cons_of_mem c hm))]

theorem hasDD_append_nondash {v : List Char} {c : Char} (h : hasDD v = false)
    (hc : c ≠ '-') : hasDD (v ++ [c]) = false := by
  induction v with
  | nil => rfl
  | cons a v' ih =>
    cases v' with
    | nil =>
      simp only [List.cons_append, List.nil_append, hasDD]
      simp [hc]
    | cons b t =>
      simp only [hasDD, Bool.or_eq_false_iff] at h
      simp only [List.cons_append, hasDD, Bool.or_eq_false_iff]
      exact ⟨h.1, ih h.2⟩

theorem takeWhile_append_all {p : Char → Bool} {k t : List Char}
    (hall : ∀ c ∈ k, p c = true) (hhd : ∀ x, t.head? = some x → p x = false) :
    (k ++ t).takeWhile p = k ∧ (k ++ t).dropWhile p = t := by
  induction k with
  | nil =>
    simp only [List.nil_append]
    cases t with
    | nil => simp
    | cons x r =>
      have hx := hhd x rfl
      constructor
      · rw [List.takeWhile_cons_of_neg (by simp [hx])]
      · rw [List.dropWhile_cons_of_neg (by simp [hx])]
  | cons a k' ih =>
    have ha := hall a (List.mem_cons_self a k')
    obtain ⟨h1, h2⟩ := ih (fun c hc => hall c (List.mem_cons_of_mem a hc))
    constructor
    · rw [List.cons_append, List.takeWhile_cons_of_pos ha, h1]
    · rw [List.cons_append, List.dropWhile_cons_of_pos ha, h2]

theorem tryMatch_dirBlock {k : String} {v rest : List Char}
    (hk1 : k.data ≠ []) (hk2 : ∀ c ∈ k.data, isWordChar c = true)
    (hlv : lazyVal (v ++ rest) = some (v, rest)) :
    tryMatch ('-' :: '-' :: (k.data ++ ' ' :: (v ++ rest))) =
      some (k, some (String.mk v), rest) := by
  have hdd : dropDelim ('-' :: '-' :: (k.data ++ ' ' :: (v ++ rest))) =
      some (k.data ++ ' ' :: (v ++ rest)) := by simp [dropDelim]
  obtain ⟨htk, hdw⟩ := takeWhile_append_all (p := isWordChar)
    (t := ' ' :: (v ++ rest)) hk2
    (fun x hx => by
      simp only [List.head?_cons, Option.some.injEq] at hx
      subst hx
      decide)
  simp only [tryMatch, hdd, htk, hdw, if_neg hk1]
  simp [hlv]

theorem serialDirs_nil : serialDirs [] = "" := rfl

theorem serialDirs_single (k v : String) :
    (serialDirs [(k, v)]).data = '-' :: '-' :: (k.data ++ ' ' :: v.data) := by
  simp [serialDirs, joinSpace, String.data_append]

theorem serialDirs_cons₂ (k v : String) (q : String × String)
    (ps : List (String × String)) :
    (serialDirs ((k, v) :: q :: ps)).data =
      '-' :: '-' :: (k.data ++ ' ' :: ((v.data ++ [' ']) ++ (serialDirs (q :: ps)).data)) := by
  simp only [serialDirs, List.map_cons, joinSpace, String.data_append]
  simp

theorem pyStripL_concat_space {l : List Char} {c : Char} (hc : isSpacePy c = true) :
    pyStripL (l ++ [c]) = pyStripL l := by
  unfold pyStripL
  rw [List.dropWhile_append]
  by_cases he : (l.dropWhile isSpacePy).isEmpty
  · rw [if_pos he]
    rw [List.isEmpty_iff] at he
    rw [he]
    simp [List.dropWhile_cons, hc]
  · rw [if_neg he]
    rw [List.reverse_append]
    simp only [List.reverse_cons, List.reverse_nil, List.nil_append, List.singleton_append]
    rw [List.dropWhile_cons_of_pos hc]

theorem goodVal_parts {s : String} (h : goodVal s = true) :
    hasDD s.data = false ∧ '—' ∉ s.data ∧ '\n' ∉ s.data ∧ pyStrip s = s := by
  simp only [goodVal, Bool.and_eq_true, Bool.not_eq_true', decide_eq_true_eq,
    beq_iff_eq] at h
  exact ⟨h.1.1.1, h.1.1.2, h.1.2, h.2⟩

theorem startsDelim_serial (p : String × String) (ps : List (String × String)) :
    startsDelim (serialDirs (p :: ps)).data = true := by
  obtain ⟨k, v⟩ := p
  cases ps with
  | nil => rw [serialDirs_single]; rfl
  | cons q ps' => rw [serialDirs_cons₂]; rfl

theorem pyStrip_concat_space {v : String} (h : pyStrip v = v) :
    pyStrip (String.mk (v.data ++ [' '])) = v := by
  have hd : pyStripL v.data = v.data := congrArg String.data h
  unfold pyStrip
  rw [pyStripL_concat_space (by decide), hd]

/-- Tokenizing serialized directive text `--k₁ v₁ --k₂ v₂ …` recovers
exactly the serialized pairs, when every key is a nonempty word and every
value is clean (no delimiter, no newline, stripped). -/
theorem findall_serial (ps : List (String × String)) :
    (∀ p ∈ ps, p.1.data ≠ [] ∧ (∀ c ∈ p.1.data, isWordChar c = true) ∧ goodVal p.2 = true) →
    findallP (serialDirs ps) = ps :=
  match ps with
  | [] => fun _ => rfl
  | [(k, v)] => fun h => by
    obtain ⟨hk1, hk2, hv⟩ := h (k, v) (List.mem_cons_self _ _)
    obtain ⟨hv1, hv2, hv3, hv4⟩ := goodVal_parts hv
    have hlv : lazyVal (v.data ++ []) = some (v.data, []) :=
      lazyVal_clean (lookaheadOk_false_inside hv1 hv2 hv3 (by intro _; simp)) hv3 rfl
    have htm := tryMatch_dirBlock hk1 hk2 hlv
    rw [List.append_nil] at htm
    unfold findallP
    rw [serialDirs_single, scanList_cons_match htm, scanList_nil]
    simp only [List.map_cons, List.map_nil, Option.getD_some]
    rw [hv4]
  | (k, v) :: q :: ps'' => fun h => by
    obtain ⟨hk1, hk2, hv⟩ := h (k, v) (List.mem_cons_self _ _)
    obtain ⟨hv1, hv2, hv3, hv4⟩ := goodVal_parts hv
    have ih := findall_serial (q :: ps'') (fun p hp => h p (List.mem_cons_of_mem _ hp))
    have hDstart : startsDelim (serialDirs (q :: ps'')).data = true :=
      startsDelim_serial q ps''
    have hok : lookaheadOk (serialDirs (q :: ps'')).data = true := by
      rw [lookaheadOk, hDstart]; rfl
    have h1' : hasDD (v.data ++ [' ']) = false := hasDD_append_nondash hv1 (by decide)
    have h2' : '—' ∉ v.data ++ [' '] := by
      intro hm
      rcases List.mem_append.mp hm with hm | hm
      · exact hv2 hm
      · simp at hm
    have h3' : '\n' ∉ v.data ++ [' '] := by
      intro hm
      rcases List.mem_append.mp hm with hm | hm
      · exact hv3 hm
      · simp at hm
    have h4' : (v.data ++ [' ']).getLast? = some '-' →
        (serialDirs (q :: ps'')).data.head? ≠ some '-' := by
      intro hL
      rw [List.getLast?_concat] at hL
      simp at hL
    have hlv : lazyVal ((v.data ++ [' ']) ++ (serialDirs (q :: ps'')).data) =
        some (v.data ++ [' '], (serialDirs (q :: ps'')).data) :=
      lazyVal_clean (lookaheadOk_false_inside h1' h2' h3' h4') h3' hok
    have htm := tryMatch_dirBlock hk1 hk2 hlv
    unfold findallP
    rw [serialDirs_cons₂, scanList_cons_match htm]
    simp only [List.map_cons, Option.getD_some]
    rw [pyStrip_concat_space hv4]
    unfold findallP at ih
    rw [ih]

/-! ## Python dicts with distinct keys -/

theorem pyDictIns_not_mem {acc : List (String × String)} {p : String × String}
    (h : ∀ q ∈ acc, q.1 ≠ p.1) : pyDictIns acc p = acc ++ [p] := by
  unfold pyDictIns
  rw [if_neg]
  intro hany
  rw [List.any_eq_true] at hany
  obtain ⟨q, hq, hq1⟩ := hany
  exact h q hq (by simpa using hq1)

theorem pyDict_go : ∀ (ps acc : List (String × String)),
    (∀ p ∈ ps, ∀ q ∈ acc, q.1 ≠ p.1) → (ps.map Prod.fst).Nodup →
    ps.foldl pyDictIns acc = acc ++ ps := by
  intro ps
  induction ps with
  | nil => intro acc _ _; simp
  | cons p ps' ih =>
    intro acc hdisj hnd
    simp only [List.foldl_cons]
    rw [pyDictIns_not_mem (hdisj p (List.mem_cons_self _ _))]
    simp only [List.map_cons, List.nodup_cons] at hnd
    rw [ih (acc ++ [p]) ?_ hnd.2]
    · simp
    · intro r hr q hq
      rcases List.mem_append.mp hq with hq | hq
      · exact hdisj r (List.mem_cons_of_mem _ hr) q hq
      · rw [List.mem_singleton.mp hq]
        intro he
        exact hnd.1 (he ▸ List.mem_map_of_mem Prod.fst hr)

theorem pyDict_eq_self {ps : List (String × String)}
    (h : (ps.map Prod.fst).Nodup) : pyDict ps = ps := by
  unfold pyDict
  rw [pyDict_go ps [] (by simp) h]
  simp

/-! ## Decimal printing and parsing of integers -/

theorem isDigit_toNat {c : Char} (h : c.isDigit = true) :
    48 ≤ c.toNat ∧ c.toNat ≤ 57 := by
  simp only [Char.isDigit, Bool.and_eq_true, decide_eq_true_eq] at h
  exact ⟨h.1, h.2⟩

theorem digit_ne_of_lt {c x : Char} (h : c.isDigit = true) (hx : x.toNat < 48) :
    c ≠ x := by
  intro he
  subst he
  have := (isDigit_toNat h).1
  omega

theorem digit_ne_of_gt {c x : Char} (h : c.isDigit = true) (hx : 57 < x.toNat) :
    c ≠ x := by
  intro he
  subst he
  have := (isDigit_toNat h).2
  omega

theorem isSpacePy_digit_false {c : Char} (h : c.isDigit = true) :
    isSpacePy c = false := by
  have h1 := digit_ne_of_lt h (x := ' ') (by decide)
  have h2 := digit_ne_of_lt h (x := '\t') (by decide)
  have h3 := digit_ne_of_lt h (x := '\n') (by decide)
  have h4 := digit_ne_of_lt h (x := '\r') (by decide)
  have h5 := digit_ne_of_lt h (x := '\x0b') (by decide)
  have h6 := digit_ne_of_lt h (x := '\x0c') (by decide)
  simp [isSpacePy, h1, h2, h3, h4, h5, h6]

theorem isWordChar_digit {c : Char} (h : c.isDigit = true) :
    isWordChar c = true := by
  simp [isWordChar, Char.isAlphanum, h]

theorem digitChar_isDigit {d : Nat} (h : d < 10) : (digitChar d).isDigit = true := by
  unfold digitChar
  interval_cases d <;> decide

theorem digitChar_val {d : Nat} (h : d < 10) : digitVal (digitChar d) = d := by
  unfold digitVal digitChar
  interval_cases d <;> decide

theorem natDigsGo_fuel : ∀ (f f' n : Nat), n ≤ f → n ≤ f' →
    natDigsGo f n = natDigsGo f' n := by
  intro f
  induction f with
  | zero =>
    intro f' n hf hf'
    have : n = 0 := by omega
    subst this
    cases f' with
    | zero => rfl
    | succ f'' => simp [natDigsGo]
  | succ f ih =>
    intro f' n hf hf'
    by_cases hn : n < 10
    · cases f' with
      | zero =>
        have : n = 0 := by omega
        subst this
        simp [natDigsGo]
      | succ f'' => simp [natDigsGo, hn]
    · cases f' with
      | zero => omega
      | succ f'' =>
        simp only [natDigsGo, if_neg hn]
        rw [ih f'' (n / 10) (by omega) (by omega)]

theorem natDigs_lt {n : Nat} (h : n < 10) : natDigs n = [digitChar n] := by
  unfold natDigs
  cases n with
  | zero => rfl
  | succ m => simp [natDigsGo, h]

theorem natDigs_ge {n : Nat} (h : 10 ≤ n) :
    natDigs n = natDigs (n / 10) ++ [digitChar (n % 10)] := by
  obtain ⟨f, rfl⟩ : ∃ f, n = f + 1 := ⟨n - 1, by omega⟩
  unfold natDigs
  rw [show natDigsGo (f + 1) (f + 1) =
      natDigsGo f ((f + 1) / 10) ++ [digitChar ((f + 1) % 10)] from by
    simp only [natDigsGo, if_neg (by omega : ¬f + 1 < 10)]]
  rw [natDigsGo_fuel f ((f + 1) / 10) ((f + 1) / 10) (by omega) (Nat.le_refl _)]

theorem natDigs_digits : ∀ n : Nat, ∀ c ∈ natDigs n, c.isDigit = true := by
  intro n
  induction n using Nat.strong_induction_on with
  | _ n ih =>
    by_cases h : n < 10
    · rw [natDigs_lt h]
      intro c hc
      rw [List.mem_singleton.mp hc]
      exact digitChar_isDigit h
    · rw [natDigs_ge (by omega)]
      intro c hc
      rcases List.mem_append.mp hc with hc | hc
      · exact ih (n / 10) (Nat.div_lt_self (by omega) (by omega)) c hc
      · rw [List.mem_singleton.mp hc]
        exact digitChar_isDigit (Nat.mod_lt n (by omega))

theorem natDigs_ne_nil (n : Nat) : natDigs n ≠ [] := by
  by_cases h : n < 10
  · rw [natDigs_lt h]; simp
  · rw [natDigs_ge (by omega)]; simp

theorem digRunGo_all_digits : ∀ (l : List Char) (acc cnt : Nat),
    (∀ c ∈ l, c.isDigit = true) →
    digRunGo acc cnt l =
      (l.foldl (fun a c => a * 10 + digitVal c) acc, cnt + l.length, []) := by
  intro l
  induction l with
  | nil => intro acc cnt _; rfl
  | cons c cs ih =>
    intro acc cnt h
    have hc := h c (List.mem_cons_self _ _)
    rw [digRunGo.eq_def]
    simp only [if_pos hc]
    rw [ih _ _ (fun d hd => h d (List.mem_cons_of_mem _ hd))]
    refine Prod.ext ?_ (Prod.ext ?_ ?_) <;> first
    | (simp; omega)
    | simp

theorem foldl_digits_natDigs : ∀ n : Nat,
    (natDigs n).foldl (fun a c => a * 10 + digitVal c) 0 = n := by
  intro n
  induction n using Nat.strong_induction_on with
  | _ n ih =>
    by_cases h : n < 10
    · rw [natDigs_lt h]
      simp [digitChar_val h]
    · rw [natDigs_ge (by omega), List.foldl_append]
      rw [ih (n / 10) (Nat.div_lt_self (by omega) (by omega))]
      simp only [List.foldl_cons, List.foldl_nil]
      rw [digitChar_val (Nat.mod_lt n (by omega))]
      omega

theorem digRun_all_digits {l : List Char} (hne : l ≠ [])
    (h : ∀ c ∈ l, c.isDigit = true) :
    digRun l = (l.foldl (fun a c => a * 10 + digitVal c) 0, l.length, []) := by
  cases l with
  | nil => exact absurd rfl hne
  | cons c cs =>
    simp only [digRun, if_pos (h c (List.mem_cons_self _ _))]
    rw [digRunGo_all_digits (c :: cs) 0 0 h]
    simp

theorem pyIntAbs_natDigs (n : Nat) : pyIntAbs (natDigs n) = some n := by
  unfold pyIntAbs
  rw [digRun_all_digits (natDigs_ne_nil n) (natDigs_digits n)]
  have hlen : (natDigs n).length ≠ 0 := by
    intro h0
    exact natDigs_ne_nil n (List.eq_nil_of_length_eq_zero h0)
  simp [hlen, foldl_digits_natDigs n]

theorem pyStripL_eq_self_of {l : List Char}
    (h : ∀ c ∈ l, isSpacePy c = false) : pyStripL l = l := by
  unfold pyStripL
  have h1 : l.dropWhile isSpacePy = l := by
    cases l with
    | nil => rfl
    | cons a t => exact List.dropWhile_cons_of_neg (by simp [h a (List.mem_cons_self _ _)])
  rw [h1]
  have h2 : l.reverse.dropWhile isSpacePy = l.reverse := by
    cases hr : l.reverse with
    | nil => rfl
    | cons a t =>
      have ha : a ∈ l := by
        rw [← List.mem_reverse, hr]
        exact List.mem_cons_self _ _
      exact List.dropWhile_cons_of_neg (by simp [h a ha])
  rw [h2, List.reverse_reverse]

theorem pyIntL_pyIntStr (n : Int) : pyIntL (pyIntStr n).data = some n := by
  have hnospace : ∀ m : Nat, ∀ c ∈ natDigs m, isSpacePy c = false :=
    fun m c hc => isSpacePy_digit_false (natDigs_digits m c hc)
  by_cases hn : n < 0
  · have hdata : (pyIntStr n).data = '-' :: natDigs n.natAbs := by
      simp [pyIntStr, hn]
    rw [hdata]
    have hsp : ∀ c ∈ '-' :: natDigs n.natAbs, isSpacePy c = false := by
      intro c hc
      rcases List.mem_cons.mp hc with hc | hc
      · subst hc; decide
      · exact hnospace _ c hc
    unfold pyIntL
    simp only [pyStripL_eq_self_of hsp, List.head?_cons, Option.some.injEq, List.tail_cons]
    rw [if_pos trivial, pyIntAbs_natDigs]
    have hA : ((n.natAbs : Int)) = -n := Int.ofNat_natAbs_of_nonpos (le_of_lt hn)
    simp [hA]
  · have hdata : (pyIntStr n).data = natDigs n.natAbs := by
      simp [pyIntStr, hn]
    rw [hdata]
    unfold pyIntL
    simp only [pyStripL_eq_self_of (hnospace n.natAbs)]
    cases hD : natDigs n.natAbs with
    | nil => exact absurd hD (natDigs_ne_nil _)
    | cons c cs =>
      have hc : c.isDigit = true := natDigs_digits _ c (hD ▸ List.mem_cons_self _ _)
      simp only [List.head?_cons, Option.some.injEq]
      rw [if_neg (digit_ne_of_lt hc (by decide)), if_neg (digit_ne_of_lt hc (by decide))]
      rw [← hD, pyIntAbs_natDigs]
      have hA : ((n.natAbs : Int)) = n := Int.natAbs_of_nonneg (by omega)
      simp [hA]

theorem pyInt_pyIntStr (n : Int) : pyInt? (pyIntStr n) = some n :=
  pyIntL_pyIntStr n

/-! ## Tokenizing a full reconstructed command text -/

theorem findall_reconstruct (pos : String) (ps : List (String × String))
    (hpos : cleanPos pos = true)
    (hgood : ∀ p ∈ ps, p.1.data ≠ [] ∧ (∀ c ∈ p.1.data, isWordChar c = true) ∧
      goodVal p.2 = true) :
    findallP (pos ++ " " ++ serialDirs ps) = ps := by
  obtain ⟨h1, h2⟩ : hasDD pos.data = false ∧ '—' ∉ pos.data := by
    simp only [cleanPos, Bool.and_eq_true, Bool.not_eq_true', decide_eq_true_eq] at hpos
    exact hpos
  have hdata : (pos ++ " " ++ serialDirs ps).data =
      pos.data ++ (' ' :: (serialDirs ps).data) := by
    simp [String.data_append]
  unfold findallP
  rw [hdata]
  rw [scanList_append_clean h1 h2 (by
    intro x hx
    simp only [List.head?_cons, Option.some.injEq] at hx
    subst hx
    decide)]
  have hsp : tryMatch (' ' :: (serialDirs ps).data) = none :=
    tryMatch_none_of_not_delim
      (startsDelim_cons_false (by decide) (fun h => absurd h (by decide)))
  rw [scanList_cons_none hsp]
  have := findall_serial ps hgood
  unfold findallP at this
  exact this

/-! ## Printed numbers are clean directive values -/

theorem hasDD_false_of_no_dash : ∀ (l : List Char), (∀ c ∈ l, c ≠ '-') →
    hasDD l = false := by
  intro l
  induction l with
  | nil => intro _; rfl
  | cons c cs ih =>
    intro h
    cases cs with
    | nil => rfl
    | cons d r =>
      have hc := h c (List.mem_cons_self _ _)
      simp only [hasDD, Bool.or_eq_false_iff]
      constructor
      · simp [hc]
      · exact ih (fun x hx => h x (List.mem_cons_of_mem _ hx))

theorem hasDD_cons_of {c : Char} {l : List Char} (h : hasDD l = false)
    (hh : ∀ x, l.head? = some x → x ≠ '-') : hasDD (c :: l) = false := by
  cases l with
  | nil => rfl
  | cons d r =>
    have hd := hh d rfl
    simp only [hasDD, Bool.or_eq_false_iff]
    exact ⟨by simp [hd], h⟩

theorem goodVal_of_chars {s : String}
    (h : ∀ c ∈ s.data, c.isDigit = true ∨ c = '.' ∨ c = '-')
    (hdd : hasDD s.data = false) : goodVal s = true := by
  have hem : '—' ∉ s.data := by
    intro hm
    rcases h _ hm with hc | hc | hc
    · exact absurd rfl (digit_ne_of_gt hc (by decide)).symm
    · exact absurd hc (by decide)
    · exact absurd hc (by decide)
  have hnl : '\n' ∉ s.data := by
    intro hm
    rcases h _ hm with hc | hc | hc
    · exact absurd rfl (digit_ne_of_lt hc (by decide)).symm
    · exact absurd hc (by decide)
    · exact absurd hc (by decide)
  have hsp : ∀ c ∈ s.data, isSpacePy c = false := by
    intro c hc
    rcases h c hc with h' | h' | h'
    · exact isSpacePy_digit_false h'
    · subst h'; decide
    · subst h'; decide
  have hstrip : pyStrip s = s := by
    unfold pyStrip
    rw [pyStripL_eq_self_of hsp]
  simp [goodVal, hdd, hem, hnl, hstrip]

theorem natDigs_no_dash (m : Nat) : ∀ c ∈ natDigs m, c ≠ '-' :=
  fun c hc => digit_ne_of_lt (natDigs_digits m c hc) (by decide)

theorem goodVal_pyIntStr (n : Int) : goodVal (pyIntStr n) = true := by
  by_cases hn : n < 0
  · have hdata : (pyIntStr n).data = '-' :: natDigs n.natAbs := by simp [pyIntStr, hn]
    apply goodVal_of_chars
    · intro c hc
      rw [hdata] at hc
      rcases List.mem_cons.mp hc with hc | hc
      · right; right; exact hc
      · left; exact natDigs_digits _ c hc
    · rw [hdata]
      apply hasDD_cons_of (hasDD_false_of_no_dash _ (natDigs_no_dash _))
      intro x hx
      cases hD : natDigs n.natAbs with
      | nil => exact absurd hD (natDigs_ne_nil _)
      | cons c cs =>
        rw [hD] at hx
        simp only [List.head?_cons, Option.some.injEq] at hx
        subst hx
        exact natDigs_no_dash _ c (hD ▸ List.mem_cons_self _ _)
  · have hdata : (pyIntStr n).data = natDigs n.natAbs := by simp [pyIntStr, hn]
    apply goodVal_of_chars
    · intro c hc
      rw [hdata] at hc
      left
      exact natDigs_digits _ c hc
    · rw [hdata]
      exact hasDD_false_of_no_dash _ (natDigs_no_dash _)

theorem pyDecStr_chars (d : PyDec) :
    ∃ tl, (pyDecStr d).data = (if d.m < 0 then '-' :: tl else tl) ∧
      ∀ c ∈ tl, c.isDigit = true ∨ c = '.' := by
  unfold pyDecStr
  by_cases he : d.e = 0
  · refine ⟨natDigs d.m.natAbs ++ ['.', '0'], ?_, ?_⟩
    · by_cases hm : d.m < 0 <;>
        simp [he, hm, String.data_append]
    · intro c hc
      rcases List.mem_append.mp hc with hc | hc
      · left; exact natDigs_digits _ c hc
      · rcases List.mem_cons.mp hc with hc | hc
        · right; exact hc
        · left
          rw [List.mem_singleton.mp hc]
          decide
  · set ds := natDigs d.m.natAbs with hds
    set ds' := if ds.length ≤ d.e then List.replicate (d.e + 1 - ds.length) '0' ++ ds else ds
      with hds'
    have hall : ∀ c ∈ ds', c.isDigit = true := by
      intro c hc
      rw [hds'] at hc
      by_cases hle : ds.length ≤ d.e
      · rw [if_pos hle] at hc
        rcases List.mem_append.mp hc with hc | hc
        · rw [List.eq_of_mem_replicate hc]
          decide
        · exact natDigs_digits _ c hc
      · rw [if_neg hle] at hc
        exact natDigs_digits _ c hc
    refine ⟨ds'.take (ds'.length - d.e) ++ '.' :: ds'.drop (ds'.length - d.e), ?_, ?_⟩
    · by_cases hm : d.m < 0 <;>
        simp [he, hm, String.data_append]
    · intro c hc
      rcases List.mem_append.mp hc with hc | hc
      · left; exact hall c (List.mem_of_mem_take hc)
      · rcases List.mem_cons.mp hc with hc | hc
        · right; exact hc
        · left; exact hall c (List.mem_of_mem_drop hc)

theorem goodVal_pyDecStr (d : PyDec) : goodVal (pyDecStr d) = true := by
  obtain ⟨tl, hdata, htl⟩ := pyDecStr_chars d
  have htl_ne : ∀ c ∈ tl, c ≠ '-' := by
    intro c hc
    rcases htl c hc with h' | h'
    · exact digit_ne_of_lt h' (by decide)
    · subst h'; decide
  apply goodVal_of_chars
  · intro c hc
    rw [hdata] at hc
    by_cases hm : d.m < 0
    · rw [if_pos hm] at hc
      rcases List.mem_cons.mp hc with hc | hc
      · right; right; exact hc
      · rcases htl c hc with h' | h'
        · left; exact h'
        · right; left; exact h'
    · rw [if_neg hm] at hc
      rcases htl c hc with h' | h'
      · left; exact h'
      · right; left; exact h'
  · rw [hdata]
    have htlDD : hasDD tl = false := hasDD_false_of_no_dash tl htl_ne
    by_cases hm : d.m < 0
    · rw [if_pos hm]
      apply hasDD_cons_of htlDD
      intro x hx
      cases tl with
      | nil => exact Option.noConfusion hx
      | cons a t =>
        simp only [List.head?_cons, Option.some.injEq] at hx
        subst hx
        exact htl_ne a (List.mem_cons_self _ _)
    · rw [if_neg hm]
      exact htlDD

/-! ## The composite post-processing steps -/

theorem sizeStep_of_lookup_none {ovs : List (String × String)} {t : WTable}
    (h : ovs.lookup "size" = none) : sizeStep ovs t = t := by
  unfold sizeStep
  rw [h]

theorem seedStep_of_ne {t : WTable} {n rng : Int} (ht : t.seed = PyVal.vInt n)
    (hn : n ≠ -1) : seedStep rng t = { t with seed := PyVal.vInt n } := by
  unfold seedStep
  rw [ht]
  simp [hn]

/-! ## Whitespace collapsing -/

theorem collapseGo_fuel : ∀ (f f' : Nat) (l : List Char), l.length ≤ f →
    l.length ≤ f' → collapseGo f l = collapseGo f' l := by
  intro f
  induction f with
  | zero =>
    intro f' l hf _
    have : l = [] := List.eq_nil_of_length_eq_zero (Nat.le_zero.mp hf)
    subst this
    cases f' <;> rfl
  | succ f ih =>
    intro f' l hf hf'
    cases l with
    | nil => cases f' <;> rfl
    | cons c rest =>
      cases f' with
      | zero => simp at hf'
      | succ f'' =>
        simp only [List.length_cons] at hf hf'
        cases rest with
        | nil =>
          have h0 : ∀ g, collapseGo g ([] : List Char) = [] := fun g => by
            cases g <;> rfl
          by_cases hc : isSpacePy c <;> simp [collapseGo, hc, h0]
        | cons d r =>
          have hdw : ((d :: r).dropWhile isSpacePy).length ≤ (d :: r).length :=
            (List.dropWhile_suffix isSpacePy).sublist.length_le
          simp only [List.length_cons] at hdw hf hf'
          simp only [collapseGo]
          have hgoal1 : ((d :: r).dropWhile isSpacePy).length ≤ f := by omega
          have hgoal2 : ((d :: r).dropWhile isSpacePy).length ≤ f'' := by omega
          have hgoal3 : (d :: r).length ≤ f := by simp only [List.length_cons]; omega
          have hgoal4 : (d :: r).length ≤ f'' := by simp only [List.length_cons]; omega
          by_cases hc : isSpacePy c
          · rw [if_pos hc, if_pos hc]
            by_cases hd : isSpacePy d
            · rw [if_pos hd, if_pos hd,
                ih f'' ((d :: r).dropWhile isSpacePy) hgoal1 hgoal2]
            · rw [if_neg hd, if_neg hd, ih f'' (d :: r) hgoal3 hgoal4]
          · rw [if_neg hc, if_neg hc, ih f'' (d :: r) hgoal3 hgoal4]

theorem collapseWS_pair_space {c d : Char} {rest : List Char}
    (hc : isSpacePy c = true) (hd : isSpacePy d = true) :
    collapseWS (c :: d :: rest) = ' ' :: collapseWS ((d :: rest).dropWhile isSpacePy) := by
  unfold collapseWS
  simp only [List.length_cons, collapseGo, if_pos hc, if_pos hd]
  rw [collapseGo_fuel (rest.length + 1) ((d :: rest).dropWhile isSpacePy).length
    ((d :: rest).dropWhile isSpacePy)
    (by have := (List.dropWhile_suffix (l := d :: rest) isSpacePy).sublist.length_le
        simp only [List.length_cons] at this
        omega)
    (Nat.le_refl _)]

theorem collapseWS_cons_nonspace {c : Char} {rest : List Char}
    (hc : isSpacePy c = false) : collapseWS (c :: rest) = c :: collapseWS rest := by
  unfold collapseWS
  cases rest with
  | nil => simp [collapseGo, hc]
  | cons d r =>
    simp only [List.length_cons, collapseGo, hc]
    rfl

theorem collapseWS_space_one {c d : Char} {rest : List Char}
    (hc : isSpacePy c = true) (hd : isSpacePy d = false) :
    collapseWS (c :: d :: rest) = c :: collapseWS (d :: rest) := by
  unfold collapseWS
  simp only [List.length_cons, collapseGo, if_pos hc, hd]
  rfl

theorem collapseWS_single (c : Char) : collapseWS [c] = [c] := by
  unfold collapseWS
  by_cases hc : isSpacePy c <;> simp [collapseGo, hc]

theorem dropWhile_head_not {p : Char → Bool} : ∀ (l : List Char) {a : Char}
    {t : List Char}, l.dropWhile p = a :: t → p a = false := by
  intro l
  induction l with
  | nil => intro a t h; cases h
  | cons c r ih =>
    intro a t h
    by_cases hc : p c
    · rw [List.dropWhile_cons_of_pos hc] at h
      exact ih h
    · rw [List.dropWhile_cons_of_neg hc] at h
      cases h
      exact Bool.eq_false_iff.mpr hc

theorem collapseWS_head_space : ∀ (l : List Char) {c : Char},
    (collapseWS l).head? = some c → isSpacePy c = true →
    ∃ d t, l = d :: t ∧ isSpacePy d = true := by
  intro l
  match l with
  | [] => intro c h _; cases h
  | [c0] =>
    intro c h hsp
    rw [collapseWS_single] at h
    simp only [List.head?_cons, Option.some.injEq] at h
    exact ⟨c0, [], rfl, by rw [h]; exact hsp⟩
  | c0 :: d0 :: r =>
    intro c h hsp
    by_cases h0 : isSpacePy c0
    · exact ⟨c0, d0 :: r, rfl, h0⟩
    · rw [collapseWS_cons_nonspace (Bool.eq_false_iff.mpr h0)] at h
      simp only [List.head?_cons, Option.some.injEq] at h
      subst h
      exact absurd hsp (by simp [Bool.eq_false_iff.mpr h0])

theorem hasRun2_cons_mono {x : Char} {t : List Char} (h : hasRun2 t = true) :
    hasRun2 (x :: t) = true := by
  cases t with
  | nil => cases h
  | cons y t' =>
    simp only [hasRun2, Bool.or_eq_true]
    exact Or.inr h

theorem hasRun2_append_left : ∀ {m : List Char} (b : List Char),
    hasRun2 m = true → hasRun2 (m ++ b) = true := by
  intro m
  induction m with
  | nil => intro b h; cases h
  | cons c m' ih =>
    intro b h
    cases m' with
    | nil => cases h
    | cons d r =>
      simp only [hasRun2, Bool.or_eq_true] at h
      rcases h with h | h
      · simp only [List.cons_append, hasRun2, Bool.or_eq_true]
        exact Or.inl h
      · simp only [List.cons_append]
        exact hasRun2_cons_mono (ih b h)

theorem hasRun2_append_right : ∀ (a : List Char) {m : List Char},
    hasRun2 m = true → hasRun2 (a ++ m) = true := by
  intro a
  induction a with
  | nil => intro m h; exact h
  | cons x a' ih => intro m h; exact hasRun2_cons_mono (ih h)

theorem hasRun2_within {m l : List Char} (h : m <:+: l) (hm : hasRun2 m = true) :
    hasRun2 l = true := by
  obtain ⟨a, b, rfl⟩ := h
  rw [List.append_assoc]
  exact hasRun2_append_right a (hasRun2_append_left b hm)

theorem pyStripL_within (l : List Char) : pyStripL l <:+: l := by
  have h1 : pyStripL l = (l.dropWhile isSpacePy).rdropWhile isSpacePy := rfl
  rw [h1]
  exact ((List.rdropWhile_prefix isSpacePy (l.dropWhile isSpacePy)).isInfix).trans
    (List.dropWhile_suffix isSpacePy).isInfix

theorem hasRun2_pyStripL {l : List Char} (h : hasRun2 l = false) :
    hasRun2 (pyStripL l) = false := by
  cases hr : hasRun2 (pyStripL l) with
  | false => rfl
  | true => rw [hasRun2_within (pyStripL_within l) hr] at h; cases h

theorem dropWhile_idem {p : Char → Bool} (y : List Char) :
    (y.dropWhile p).dropWhile p = y.dropWhile p := by
  cases hd : y.dropWhile p with
  | nil => rfl
  | cons a t => exact List.dropWhile_cons_of_neg (by simp [dropWhile_head_not y hd])

theorem pyStripL_idem (l : List Char) : pyStripL (pyStripL l) = pyStripL l := by
  have hdrop : (pyStripL l).dropWhile isSpacePy = pyStripL l := by
    cases hm : pyStripL l with
    | nil => rfl
    | cons a t =>
      obtain ⟨u, hu⟩ := List.rdropWhile_prefix isSpacePy (l.dropWhile isSpacePy)
      rw [show (l.dropWhile isSpacePy).rdropWhile isSpacePy = pyStripL l from rfl, hm] at hu
      have hXa : l.dropWhile isSpacePy = a :: (t ++ u) := by rw [← hu]; simp
      have ha := dropWhile_head_not l hXa
      exact List.dropWhile_cons_of_neg (by simp [ha])
  have hrev : (pyStripL l).reverse = (l.dropWhile isSpacePy).reverse.dropWhile isSpacePy := by
    unfold pyStripL
    rw [List.reverse_reverse]
  show (((pyStripL l).dropWhile isSpacePy).reverse.dropWhile isSpacePy).reverse = pyStripL l
  rw [hdrop, hrev, dropWhile_idem, ← hrev, List.reverse_reverse]

theorem collapseWS_noRun2_go : ∀ (n : Nat) (l : List Char), l.length ≤ n →
    hasRun2 (collapseWS l) = false := by
  intro n
  induction n with
  | zero =>
    intro l h
    have : l = [] := List.eq_nil_of_length_eq_zero (Nat.le_zero.mp h)
    subst this
    rfl
  | succ n ih =>
    intro l hlen
    rcases l with _ | ⟨c, _ | ⟨d, r⟩⟩
    · rfl
    · rw [collapseWS_single]; rfl
    · simp only [List.length_cons] at hlen
      by_cases hc : isSpacePy c
      · by_cases hd : isSpacePy d
        · rw [collapseWS_pair_space hc hd]
          have hl' : ((d :: r).dropWhile isSpacePy).length ≤ n := by
            have := (List.dropWhile_suffix (l := d :: r) isSpacePy).sublist.length_le
            simp only [List.length_cons] at this
            omega
          have hrec := ih _ hl'
          cases hX : collapseWS ((d :: r).dropWhile isSpacePy) with
          | nil => rfl
          | cons x t =>
            rw [hX] at hrec
            simp only [hasRun2, Bool.or_eq_false_iff]
            refine ⟨?_, hrec⟩
            by_cases hx : isSpacePy x
            · obtain ⟨e, t2, he, hesp⟩ :=
                collapseWS_head_space ((d :: r).dropWhile isSpacePy) (by rw [hX]; rfl) hx
              have hnot := dropWhile_head_not (d :: r) he
              rw [hnot] at hesp
              cases hesp
            · simp [hx]
        · have hd' : isSpacePy d = false := Bool.eq_false_iff.mpr hd
          rw [collapseWS_space_one hc hd']
          have hrec := ih (d :: r) (by simp only [List.length_cons]; omega)
          rw [collapseWS_cons_nonspace hd'] at hrec ⊢
          simp only [hasRun2, Bool.or_eq_false_iff]
          exact ⟨by simp [hd'], hrec⟩
      · have hc' : isSpacePy c = false := Bool.eq_false_iff.mpr hc
        rw [collapseWS_cons_nonspace hc']
        have hrec := ih (d :: r) (by simp only [List.length_cons]; omega)
        cases hX : collapseWS (d :: r) with
        | nil => rfl
        | cons x t =>
          rw [hX] at hrec
          simp only [hasRun2, Bool.or_eq_false_iff]
          exact ⟨by simp [hc'], hrec⟩

theorem hasRun2_collapseWS (l : List Char) : hasRun2 (collapseWS l) = false :=
  collapseWS_noRun2_go l.length l (Nat.le_refl _)

theorem stripResidual_data (s : String) :
    (stripResidual s).data = pyStripL (collapseWS (pyStripL (scanList s.data).2)) := rfl

theorem hasRun2_stripResidual (s : String) :
    hasRun2 (stripResidual s).data = false := by
  rw [stripResidual_data]
  exact hasRun2_pyStripL (hasRun2_collapseWS _)

theorem stripResidual_stripped (s : String) :
    pyStrip (stripResidual s) = stripResidual s := by
  unfold pyStrip
  rw [stripResidual_data, pyStripL_idem]
  rfl

/-! ## Claim C1: seed resolution -/

/-- The append step of `parse_text` never touches the `seed` entry. -/
theorem appendStepN_seed (t : NTable) : (appendStepN t).seed = t.seed := by
  unfold appendStepN
  dsimp only
  split <;> split <;> rfl

/-- Claim C1 (corrected): the seed post-processing exists only in the web
router's `parse_prompt`, where a merged seed equal to `-1` is replaced by
the supplied random draw and any other integer seed is kept as is; the
node's `parse_text` performs no seed randomization at all — its seed is
exactly the value produced by the merge loop (so `-1` survives there). -/
theorem C1_claim (fs : String → Bool) (tload : String → Option Template)
    (rng : Int) (prompt0 : String) (env : FileEnv) (cmd : String) :
    ((ppSized fs tload prompt0).seed = PyVal.vInt (-1) →
      (parse_prompt fs tload rng prompt0).table.seed = PyVal.vInt rng) ∧
    (∀ n : Int, n ≠ -1 → (ppSized fs tload prompt0).seed = PyVal.vInt n →
      (parse_prompt fs tload rng prompt0).table.seed = PyVal.vInt n) ∧
    (parse_text env cmd).seed = (mergeN (ptBase cmd) (ptOvs cmd)).seed := by
  refine ⟨?_, ?_, ?_⟩
  · intro h
    show (ppTable fs tload rng prompt0).seed = PyVal.vInt rng
    unfold ppTable seedStep
    rw [h]
    simp
  · intro n hn h
    show (ppTable fs tload rng prompt0).seed = PyVal.vInt n
    unfold ppTable seedStep
    rw [h]
    simp [hn]
  · show (appendStepN (ptMerged cmd)).seed = (mergeN (ptBase cmd) (ptOvs cmd)).seed
    rw [appendStepN_seed]
    rfl

/-- Counterexample to C1 as stated: at the node call site
(`parse_text`), the text of the claim's own instance keeps seed `-1` —
`nodes.py` contains no seed randomization. -/
theorem C1_counterexample :
    (parse_text envNone "a cat --steps 30 --seed -1").pos = PyVal.vStr "a cat" ∧
    (parse_text envNone "a cat --steps 30 --seed -1").steps = PyVal.vInt 30 ∧
    (parse_text envNone "a cat --steps 30 --seed -1").seed = PyVal.vInt (-1) := by
  decide

/-- Witness for C1 at concrete inputs: the router randomizes a `-1` seed
and keeps a non-`-1` seed. -/
theorem C1_witness :
    (parse_prompt fsNone tlNone 42 "a cat --steps 30 --seed -1").table.seed = PyVal.vInt 42 ∧
    (parse_prompt fsNone tlNone 42 "--seed 7").table.seed = PyVal.vInt 7 ∧
    (parse_text envNone "x --seed 5").seed = (mergeN (ptBase "x --seed 5") (ptOvs "x --seed 5")).seed := by
  have h1 := C1_claim fsNone tlNone 42 "a cat --steps 30 --seed -1" envNone "x --seed 5"
  have h2 := C1_claim fsNone tlNone 42 "--seed 7" envNone "x"
  exact ⟨h1.1 (by decide), h2.2.1 7 (by decide) (by decide), h1.2.2⟩

/-! ## Claim C2: template-name guard -/

/-- A `takeWhile` run equals the whole list exactly when every element
satisfies the predicate. -/
theorem twEqSelf {p : Char → Bool} : ∀ {l : List Char},
    List.takeWhile p l = l ↔ ∀ a ∈ l, p a = true := by
  intro l
  induction l with
  | nil => simp
  | cons c cs ih =>
    constructor
    · intro h
      cases hc : p c with
      | false =>
        rw [List.takeWhile_cons, hc] at h
        simp at h
      | true =>
        rw [List.takeWhile_cons, hc] at h
        simp only [if_true] at h
        have h2 : List.takeWhile p cs = cs := by
          simpa using h
        intro a ha
        rcases List.mem_cons.mp ha with rfl | ha2
        · exact hc
        · exact ih.mp h2 a ha2
    · intro h
      rw [List.takeWhile_cons, h c (List.mem_cons_self c cs)]
      simp only [if_true]
      rw [ih.mpr (fun a ha => h a (List.mem_cons_of_mem _ ha))]

/-- A character list is its own basename exactly when it contains no
slash. -/
theorem basenameL_eq_self_iff (l : List Char) : basenameL l = l ↔ '/' ∉ l := by
  unfold basenameL
  constructor
  · intro h hm
    have h2 : l.reverse.takeWhile (· ≠ '/') = l.reverse := by
      have := congrArg List.reverse h
      simpa using this
    have h3 := (twEqSelf.mp h2) '/' (by simpa using hm)
    simp at h3
  · intro hm
    have h2 : l.reverse.takeWhile (· ≠ '/') = l.reverse :=
      twEqSelf.mpr (fun a ha => by
        have hal : a ∈ l := by simpa using ha
        simp only [decide_eq_true_eq]
        exact fun he => hm (he ▸ hal))
    rw [h2, List.reverse_reverse]

/-- A string is its own POSIX basename exactly when it contains no
slash. -/
theorem posixBasename_eq_self_iff (s : String) :
    posixBasename s = s ↔ '/' ∉ s.data := by
  constructor
  · intro h
    have h2 : basenameL s.data = s.data := congrArg String.data h
    exact (basenameL_eq_self_iff _).mp h2
  · intro h
    show String.mk (basenameL s.data) = s
    rw [(basenameL_eq_self_iff _).mpr h]

/-- Claim C2 (confirmed): `parse_prompt` consumes the first
whitespace-separated token as a template name exactly when the token
equals its own basename (equivalently: contains no `/`) and the token's
`.json` file exists under the fixed template directory; in every other
case it selects `txt2img.json` and leaves the prompt unmodified. -/
theorem C2_claim (fs : String → Bool) (prompt w : String) (rest : List String)
    (hsplit : pySplit (pyStrip prompt) = w :: rest) :
    (posixBasename (pyStrip w) = pyStrip w ∧
        fs (pjoin JSON_DIR (pyStrip w ++ ".json")) = true →
      ppSelected fs prompt = (pyStrip w ++ ".json", joinSpace rest)) ∧
    (posixBasename (pyStrip w) ≠ pyStrip w ∨
        fs (pjoin JSON_DIR (pyStrip w ++ ".json")) = false →
      ppSelected fs prompt = ("txt2img.json", prompt)) ∧
    (posixBasename (pyStrip w) = pyStrip w ↔ '/' ∉ (pyStrip w).data) := by
  refine ⟨?_, ?_, posixBasename_eq_self_iff _⟩
  · rintro ⟨h1, h2⟩
    simp only [ppSelected, selectTemplate, hsplit]
    rw [if_pos h1, if_pos h2]
  · intro h
    simp only [ppSelected, selectTemplate, hsplit]
    rcases h with h | h
    · rw [if_neg h]
    · by_cases hb : posixBasename (pyStrip w) = pyStrip w
      · rw [if_pos hb, if_neg (by simp [h])]
      · rw [if_neg hb]

/-- Witness for C2: a `../secret`-headed prompt never consumes the token
(even when the probed file exists), and a clean existing template name is
consumed. -/
theorem C2_witness :
    ppSelected (fun _ => true) "../secret hello" = ("txt2img.json", "../secret hello") ∧
    ppSelected (fun f => decide (f = pjoin JSON_DIR "anime.json")) "anime a cat" = ("anime.json", "a cat") := by
  constructor
  · exact (C2_claim (fun _ => true) "../secret hello" "../secret" ["hello"]
      (by decide)).2.1 (Or.inl (by decide))
  · have h := (C2_claim (fun f => decide (f = pjoin JSON_DIR "anime.json")) "anime a cat" "anime"
      ["a", "cat"] (by decide)).1 ⟨by decide, by decide⟩
    rw [h]
    decide

/-! ## Claim C3: append fields -/

/-- Claim C3 (corrected): the `pos_`/`neg_` append step exists only in
the node's `parse_text`: a non-empty string `pos_` is joined onto `pos`
with `", "` and the result stripped of leading/trailing commas and
spaces, and identically `neg_` onto `neg`.  (The web router's table has
no `pos` entry and `parse_prompt` performs no append at all.) -/
theorem C3_claim (env : FileEnv) (cmd : String) :
    (∀ p q : String, (ptMerged cmd).pos = PyVal.vStr p →
      (ptMerged cmd).pos_ = PyVal.vStr q → q ≠ "" →
      (parse_text env cmd).pos = PyVal.vStr (stripCommaSpace (p ++ ", " ++ q))) ∧
    (∀ a b : String, (ptMerged cmd).neg = PyVal.vStr a →
      (ptMerged cmd).neg_ = PyVal.vStr b → b ≠ "" →
      (parse_text env cmd).neg = PyVal.vStr (stripCommaSpace (a ++ ", " ++ b))) := by
  constructor
  · intro p q hp hq hqne
    have htr : pyTruthy (ptMerged cmd).pos_ = true := by
      rw [hq]; simp [pyTruthy, hqne]
    show (appendStepN (ptMerged cmd)).pos = _
    unfold appendStepN
    dsimp only
    rw [if_pos htr]
    have hjoin : joinCS (ptMerged cmd).pos (ptMerged cmd).pos_ =
        PyVal.vStr (stripCommaSpace (p ++ ", " ++ q)) := by
      rw [hp, hq]
      rfl
    split
    · simp [hjoin]
    · simp [hjoin]
  · intro a b ha hb hbne
    have htr : pyTruthy (ptMerged cmd).neg_ = true := by
      rw [hb]; simp [pyTruthy, hbne]
    show (appendStepN (ptMerged cmd)).neg = _
    unfold appendStepN
    dsimp only
    have hjoin : joinCS (ptMerged cmd).neg (ptMerged cmd).neg_ =
        PyVal.vStr (stripCommaSpace (a ++ ", " ++ b)) := by
      rw [ha, hb]
      rfl
    by_cases h1 : pyTruthy (ptMerged cmd).pos_ = true
    · rw [if_pos h1, if_pos htr]
      simp [hjoin]
    · rw [if_neg h1, if_pos htr]
      simp [hjoin]

/-- Counterexample to C3 as stated: the claim's own instance at the web
router call site — `parse_prompt` on `"base --pos_ extra"` leaves the
positive text `"base"` (no `", extra"` is appended anywhere: the router's
table has no `pos` entry, and `pos_` keeps its merged value). -/
theorem C3_counterexample :
    (parse_prompt fsNone tlNone 7 "base --pos_ extra").posText = "base" ∧
    (parse_prompt fsNone tlNone 7 "base --pos_ extra").table.pos_ = PyVal.vStr "extra" := by
  decide

/-- Witness for C3: the node call site does append — `"base --pos_ extra"`
yields pos `"base, extra"`. -/
theorem C3_witness :
    (parse_text envNone "base --pos_ extra").pos = PyVal.vStr "base, extra" ∧
    (parse_text envNone "base --neg bad --neg_ worse").neg = PyVal.vStr "bad, worse" := by
  constructor
  · have h := (C3_claim envNone "base --pos_ extra").1 "base" "extra"
      (by decide) (by decide) (by decide)
    rw [h]
    decide
  · have h := (C3_claim envNone "base --neg bad --neg_ worse").2 "bad" "worse"
      (by decide) (by decide) (by decide)
    rw [h]
    decide

/-! ## Claim C4: type preservation and coercion-failure atomicity -/

/-- Coercion preserves the dynamic type of the entry. -/
theorem tagOf_setCoerce (cur : PyVal) (v : String) :
    tagOf (setCoerce cur v) = tagOf cur := by
  cases cur with
  | vStr s => rfl
  | vInt n => cases h : pyInt? v <;> simp [setCoerce, h, tagOf]
  | vFloat d => cases h : pyFloat? v <;> simp [setCoerce, h, tagOf]

/-- The comma-space join preserves the dynamic type of its first
operand. -/
theorem tagOf_joinCS (a b : PyVal) : tagOf (joinCS a b) = tagOf a := by
  cases a <;> cases b <;> rfl

/-- One merge-loop iteration of the router preserves the typing
invariant exactly. -/
theorem wellTypedW_applyDirectiveW (t : WTable) (kv : String × String) :
    wellTypedW (applyDirectiveW t kv) = wellTypedW t := by
  unfold applyDirectiveW
  by_cases h0 : kv.1 = "pos_"
  · rw [if_pos h0]
    unfold wellTypedW
    rw [tagOf_setCoerce]
  · rw [if_neg h0]
    by_cases h1 : kv.1 = "neg"
    · rw [if_pos h1]
      unfold wellTypedW
      rw [tagOf_setCoerce]
    · rw [if_neg h1]
      by_cases h2 : kv.1 = "neg_"
      · rw [if_pos h2]
        unfold wellTypedW
        rw [tagOf_setCoerce]
      · rw [if_neg h2]
        by_cases h3 : kv.1 = "model"
        · rw [if_pos h3]
          unfold wellTypedW
          rw [tagOf_setCoerce]
        · rw [if_neg h3]
          by_cases h4 : kv.1 = "seed"
          · rw [if_pos h4]
            unfold wellTypedW
            rw [tagOf_setCoerce]
          · rw [if_neg h4]
            by_cases h5 : kv.1 = "steps"
            · rw [if_pos h5]
              unfold wellTypedW
              rw [tagOf_setCoerce]
            · rw [if_neg h5]
              by_cases h6 : kv.1 = "width"
              · rw [if_pos h6]
                unfold wellTypedW
                rw [tagOf_setCoerce]
              · rw [if_neg h6]
                by_cases h7 : kv.1 = "height"
                · rw [if_pos h7]
                  unfold wellTypedW
                  rw [tagOf_setCoerce]
                · rw [if_neg h7]
                  by_cases h8 : kv.1 = "count"
                  · rw [if_pos h8]
                    unfold wellTypedW
                    rw [tagOf_setCoerce]
                  · rw [if_neg h8]
                    by_cases h9 : kv.1 = "length"
                    · rw [if_pos h9]
                      unfold wellTypedW
                      rw [tagOf_setCoerce]
                    · rw [if_neg h9]
                      by_cases h10 : kv.1 = "cfg"
                      · rw [if_pos h10]
                        unfold wellTypedW
                        rw [tagOf_setCoerce]
                      · rw [if_neg h10]
                        by_cases h11 : kv.1 = "file"
                        · rw [if_pos h11]
                          unfold wellTypedW
                          rw [tagOf_setCoerce]
                        · rw [if_neg h11]
                          by_cases h12 : kv.1 = "tokens"
                          · rw [if_pos h12]
                            unfold wellTypedW
                            rw [tagOf_setCoerce]
                          · rw [if_neg h12]

/-- The router's merge loop preserves the typing invariant exactly. -/
theorem wellTypedW_mergeW (t : WTable) (ovs : List (String × String)) :
    wellTypedW (mergeW t ovs) = wellTypedW t := by
  induction ovs generalizing t with
  | nil => rfl
  | cons kv rest ih =>
    show wellTypedW (mergeW (applyDirectiveW t kv) rest) = _
    rw [ih, wellTypedW_applyDirectiveW]

/-- One merge-loop iteration of the node preserves the typing invariant
exactly. -/
theorem wellTypedN_applyDirectiveN (t : NTable) (kv : String × String) :
    wellTypedN (applyDirectiveN t kv) = wellTypedN t := by
  unfold applyDirectiveN
  by_cases h0 : kv.1 = "pos"
  · rw [if_pos h0]
    unfold wellTypedN
    rw [tagOf_setCoerce]
  · rw [if_neg h0]
    by_cases h1 : kv.1 = "pos_"
    · rw [if_pos h1]
      unfold wellTypedN
      rw [tagOf_setCoerce]
    · rw [if_neg h1]
      by_cases h2 : kv.1 = "neg"
      · rw [if_pos h2]
        unfold wellTypedN
        rw [tagOf_setCoerce]
      · rw [if_neg h2]
        by_cases h3 : kv.1 = "neg_"
        · rw [if_pos h3]
          unfold wellTypedN
          rw [tagOf_setCoerce]
        · rw [if_neg h3]
          by_cases h4 : kv.1 = "model"
          · rw [if_pos h4]
            unfold wellTypedN
            rw [tagOf_setCoerce]
          · rw [if_neg h4]
            by_cases h5 : kv.1 = "seed"
            · rw [if_pos h5]
              unfold wellTypedN
              rw [tagOf_setCoerce]
            · rw [if_neg h5]
              by_cases h6 : kv.1 = "steps"
              · rw [if_pos h6]
                unfold wellTypedN
                rw [tagOf_setCoerce]
              · rw [if_neg h6]
                by_cases h7 : kv.1 = "width"
                · rw [if_pos h7]
                  unfold wellTypedN
                  rw [tagOf_setCoerce]
                · rw [if_neg h7]
                  by_cases h8 : kv.1 = "height"
                  · rw [if_pos h8]
                    unfold wellTypedN
                    rw [tagOf_setCoerce]
                  · rw [if_neg h8]
                    by_cases h9 : kv.1 = "count"
                    · rw [if_pos h9]
                      unfold wellTypedN
                      rw [tagOf_setCoerce]
                    · rw [if_neg h9]
                      by_cases h10 : kv.1 = "length"
                      · rw [if_pos h10]
                        unfold wellTypedN
                        rw [tagOf_setCoerce]
                      · rw [if_neg h10]
                        by_cases h11 : kv.1 = "cfg"
                        · rw [if_pos h11]
                          unfold wellTypedN
                          rw [tagOf_setCoerce]
                        · rw [if_neg h11]
                          by_cases h12 : kv.1 = "file"
                          · rw [if_pos h12]
                            unfold wellTypedN
                            rw [tagOf_setCoerce]
                          · rw [if_neg h12]
                            by_cases h13 : kv.1 = "tokens"
                            · rw [if_pos h13]
                              unfold wellTypedN
                              rw [tagOf_setCoerce]
                            · rw [if_neg h13]

/-- The node's merge loop preserves the typing invariant exactly. -/
theorem wellTypedN_mergeN (t : NTable) (ovs : List (String × String)) :
    wellTypedN (mergeN t ovs) = wellTypedN t := by
  induction ovs generalizing t with
  | nil => rfl
  | cons kv rest ih =>
    show wellTypedN (mergeN (applyDirectiveN t kv) rest) = _
    rw [ih, wellTypedN_applyDirectiveN]

/-- Updating `width`/`height` with integers keeps the router's table
well typed. -/
theorem wellTypedW_upd_wh (t : WTable) (w h : Int) (ht : wellTypedW t = true) :
    wellTypedW { t with width := PyVal.vInt w } = true ∧
    wellTypedW { t with width := PyVal.vInt w, height := PyVal.vInt h } = true := by
  simp only [wellTypedW, Bool.and_eq_true, beq_iff_eq, tagOf] at ht ⊢
  tauto

/-- Updating `seed` with an integer keeps the router's table well
typed. -/
theorem wellTypedW_upd_seed (t : WTable) (m : Int) (ht : wellTypedW t = true) :
    wellTypedW { t with seed := PyVal.vInt m } = true := by
  simp only [wellTypedW, Bool.and_eq_true, beq_iff_eq, tagOf] at ht ⊢
  tauto

/-- The `size` post-processing keeps the router's table well typed. -/
theorem wellTypedW_sizeStep (ovs : List (String × String)) (t : WTable)
    (h : wellTypedW t = true) : wellTypedW (sizeStep ovs t) = true := by
  unfold sizeStep
  split
  · exact h
  · split
    · split
      · exact h
      · split
        · exact (wellTypedW_upd_wh t _ _ h).2
        · exact (wellTypedW_upd_wh t _ 0 h).1
    · exact h

/-- The `seed` post-processing keeps the router's table well typed. -/
theorem wellTypedW_seedStep (rng : Int) (t : WTable)
    (h : wellTypedW t = true) : wellTypedW (seedStep rng t) = true := by
  unfold seedStep
  split
  · split
    · exact wellTypedW_upd_seed t _ h
    · exact wellTypedW_upd_seed t _ h
  · split
    · split
      · exact wellTypedW_upd_seed t _ h
      · exact wellTypedW_upd_seed t _ h
    · exact h
  · dsimp only
    split
    · exact wellTypedW_upd_seed t _ h
    · exact wellTypedW_upd_seed t _ h

/-- The append step keeps the node's table well typed. -/
theorem wellTypedN_appendStepN (t : NTable) (h : wellTypedN t = true) :
    wellTypedN (appendStepN t) = true := by
  unfold appendStepN
  dsimp only
  split <;> split <;>
    (simp only [wellTypedN, Bool.and_eq_true, beq_iff_eq, tagOf_joinCS] at h ⊢; tauto)

/-- Setting `file` to a string keeps the node's table well typed. -/
theorem wellTypedN_upd_file (t : NTable) (v : String) (ht : wellTypedN t = true) :
    wellTypedN { t with file := PyVal.vStr v } = true := by
  simp only [wellTypedN, Bool.and_eq_true, beq_iff_eq, tagOf] at ht ⊢
  tauto

/-- Claim C4 (corrected): within the merge loops of both call sites the
claim holds — every pass preserves the declared field types, a failed
`int`/`float` coercion leaves the prior value untouched, a failing
directive never blocks the rest of the fold, and a key outside the
registry is ignored by the loop; both full pipelines keep every table
well typed.  (The pipeline-level half of the unknown-key clause is false
at the router: the non-registry key `size` does modify the table through
the post-merge size handling — see the counterexample.) -/
theorem C4_claim :
    (∀ (t : WTable) (ovs : List (String × String)),
      wellTypedW (mergeW t ovs) = wellTypedW t) ∧
    (∀ (u : NTable) (ovs : List (String × String)),
      wellTypedN (mergeN u ovs) = wellTypedN u) ∧
    (∀ (cur : PyVal) (v : String), tagOf (setCoerce cur v) = tagOf cur) ∧
    (∀ (n : Int) (v : String), pyInt? v = none →
      setCoerce (PyVal.vInt n) v = PyVal.vInt n) ∧
    (∀ (d : PyDec) (v : String), pyFloat? v = none →
      setCoerce (PyVal.vFloat d) v = PyVal.vFloat d) ∧
    (∀ (t : WTable) (kv : String × String) (rest : List (String × String)),
      mergeW t (kv :: rest) = mergeW (applyDirectiveW t kv) rest) ∧
    (∀ (t : WTable) (k v : String), k ∉ wKeys → applyDirectiveW t (k, v) = t) ∧
    (∀ (u : NTable) (k v : String), k ∉ "pos" :: wKeys → applyDirectiveN u (k, v) = u) ∧
    (∀ (fs : String → Bool) (tload : String → Option Template) (rng : Int) (p0 : String),
      wellTypedW (parse_prompt fs tload rng p0).table = true) ∧
    (∀ (env : FileEnv) (cmd : String), wellTypedN (parse_text env cmd) = true) := by
  refine ⟨wellTypedW_mergeW, wellTypedN_mergeN, tagOf_setCoerce, ?_, ?_, ?_, ?_, ?_, ?_, ?_⟩
  · intro n v h
    simp [setCoerce, h]
  · intro d v h
    simp [setCoerce, h]
  · intro t kv rest
    rfl
  · intro t k v h
    simp only [wKeys, List.mem_cons, not_or, List.not_mem_nil, or_false] at h
    obtain ⟨h1, h2, h3, h4, h5, h6, h7, h8, h9, h10, h11, h12, h13⟩ := h
    unfold applyDirectiveW
    simp only [if_neg h1, if_neg h2, if_neg h3, if_neg h4, if_neg h5, if_neg h6,
      if_neg h7, if_neg h8, if_neg h9, if_neg h10, if_neg h11, if_neg h12, if_neg h13]
  · intro u k v h
    simp only [wKeys, List.mem_cons, not_or, List.not_mem_nil, or_false] at h
    obtain ⟨h0, h1, h2, h3, h4, h5, h6, h7, h8, h9, h10, h11, h12, h13⟩ := h
    unfold applyDirectiveN
    simp only [if_neg h0, if_neg h1, if_neg h2, if_neg h3, if_neg h4, if_neg h5, if_neg h6,
      if_neg h7, if_neg h8, if_neg h9, if_neg h10, if_neg h11, if_neg h12, if_neg h13]
  · intro fs tload rng p0
    show wellTypedW (ppTable fs tload rng p0) = true
    unfold ppTable
    apply wellTypedW_seedStep
    unfold ppSized
    apply wellTypedW_sizeStep
    unfold ppMerged ppPassOne
    rw [wellTypedW_mergeW, wellTypedW_mergeW]
    rfl
  · intro env cmd
    show wellTypedN { appendStepN (ptMerged cmd) with
      file := PyVal.vStr (load_file_as_base64 env (pyValAsStr (appendStepN (ptMerged cmd)).file)) } = true
    apply wellTypedN_upd_file
    apply wellTypedN_appendStepN
    show wellTypedN (mergeN (ptBase cmd) (ptOvs cmd)) = true
    rw [wellTypedN_mergeN]
    rfl

/-- Counterexample to C4 as stated: at the router, the key `size` is not
in the registry, yet `"--size 100x200"` changes `width` and `height`
from their defaults (the size handling reads the raw override dict after
the merge loop). -/
theorem C4_counterexample :
    "size" ∉ wKeys ∧
    (parse_prompt fsNone tlNone 7 "--size 100x200").table.width = PyVal.vInt 100 ∧
    (parse_prompt fsNone tlNone 7 "--size 100x200").table.height = PyVal.vInt 200 ∧
    defaultW.width = PyVal.vInt 512 ∧ defaultW.height = PyVal.vInt 512 := by
  decide

/-- Witness for C4 at concrete inputs. -/
theorem C4_witness :
    wellTypedW (mergeW defaultW [("steps", "abc"), ("cfg", "zz"), ("model", "m")]) =
      wellTypedW defaultW ∧
    setCoerce (PyVal.vInt 4) "abc" = PyVal.vInt 4 ∧
    applyDirectiveW defaultW ("bogus", "1") = defaultW ∧
    wellTypedN (parse_text envNone "a --steps nope") = true := by
  have h := C4_claim
  exact ⟨h.1 defaultW _, h.2.2.2.1 4 "abc" (by decide),
    h.2.2.2.2.2.2.1 defaultW "bogus" "1" (by decide),
    h.2.2.2.2.2.2.2.2.2 envNone "a --steps nope"⟩

/-! ## Claim C7: size directive -/

/-- Claim C7 (corrected): the router's size handling consults only the
override dict of the *user* pass (template-embedded `size` directives are
inert); `size` is not a registry key; a well-formed `<int>x<int>` value
sets `width` and `height`; a wrong number of parts or a non-integer
*first* part leaves the table untouched — but a non-integer *second*
part is not atomic: `width` is already updated when the failure hits, so
"width and height keep their prior values" is false in that case. -/
theorem C7_claim (ovs : List (String × String)) (t : WTable) :
    ("size" ∉ wKeys) ∧
    (ovs.lookup "size" = none → sizeStep ovs t = t) ∧
    (∀ v a b w h, ovs.lookup "size" = some v →
      splitOnC 'x' (lowerL v.data) = [a, b] → pyIntL a = some w → pyIntL b = some h →
      sizeStep ovs t = { t with width := PyVal.vInt w, height := PyVal.vInt h }) ∧
    (∀ v a b w, ovs.lookup "size" = some v →
      splitOnC 'x' (lowerL v.data) = [a, b] → pyIntL a = some w → pyIntL b = none →
      sizeStep ovs t = { t with width := PyVal.vInt w }) ∧
    (∀ v a b, ovs.lookup "size" = some v →
      splitOnC 'x' (lowerL v.data) = [a, b] → pyIntL a = none → sizeStep ovs t = t) ∧
    (∀ v, ovs.lookup "size" = some v →
      (∀ a b, splitOnC 'x' (lowerL v.data) ≠ [a, b]) → sizeStep ovs t = t) ∧
    (∀ (fs : String → Bool) (tload : String → Option Template) (rng : Int) (p0 : String),
      (parse_prompt fs tload rng p0).table =
        seedStep rng (sizeStep (ppUserOvs fs p0) (ppMerged fs tload p0))) := by
  refine ⟨by decide, ?_, ?_, ?_, ?_, ?_, fun _ _ _ _ => rfl⟩
  · intro h
    simp only [sizeStep, h]
  · intro v a b w h hv hs hw hh
    simp only [sizeStep, hv, hs, hw, hh]
  · intro v a b w hv hs hw hh
    simp only [sizeStep, hv, hs, hw, hh]
  · intro v a b hv hs hw
    simp only [sizeStep, hv, hs, hw]
  · intro v hv h2
    rcases hs : splitOnC 'x' (lowerL v.data) with _ | ⟨a, _ | ⟨b, _ | ⟨c, rest⟩⟩⟩
    · simp only [sizeStep, hv, hs]
    · simp only [sizeStep, hv, hs]
    · exact (h2 a b hs).elim
    · simp only [sizeStep, hv, hs]

/-- Counterexample to C7 as stated: `"--size 640xzz"` (a parse failure on
the second part) changes `width` to 640 while `height` stays at its
prior value — not "width and height keep their prior values"; and a
template-pass merge containing `size` changes nothing (the handling only
reads the user-pass dict). -/
theorem C7_counterexample :
    (parse_prompt fsNone tlNone 7 "--size 640xzz").table.width = PyVal.vInt 640 ∧
    (parse_prompt fsNone tlNone 7 "--size 640xzz").table.height = PyVal.vInt 512 ∧
    defaultW.width = PyVal.vInt 512 ∧
    pyDict (findallP (extractDefaultPrompt ((tlSize "f").getD []))) = [("size", "100x200")] ∧
    (parse_prompt fsNone tlSize 7 "").table.width = PyVal.vInt 512 ∧
    (parse_prompt fsNone tlSize 7 "").table.height = PyVal.vInt 512 := by
  decide

/-- Witness for C7 at concrete inputs. -/
theorem C7_witness :
    sizeStep [("size", "640x480")] defaultW =
      { defaultW with width := PyVal.vInt 640, height := PyVal.vInt 480 } ∧
    sizeStep [("size", "zzxqq")] defaultW = defaultW ∧
    sizeStep [("size", "notanumber")] defaultW = defaultW ∧
    sizeStep [] defaultW = defaultW := by
  have h1 := C7_claim [("size", "640x480")] defaultW
  have h2 := C7_claim [("size", "zzxqq")] defaultW
  have h3 := C7_claim [("size", "notanumber")] defaultW
  have h4 := C7_claim ([] : List (String × String)) defaultW
  refine ⟨?_, ?_, ?_, ?_⟩
  · exact h1.2.2.1 "640x480" "640".data "480".data 640 480 (by decide) (by decide)
      (by decide) (by decide)
  · exact h2.2.2.2.2.1 "zzxqq" "zz".data "qq".data (by decide) (by decide) (by decide)
  · refine h3.2.2.2.2.2.1 "notanumber" (by decide) ?_
    intro a b h
    rw [show splitOnC 'x' (lowerL ("notanumber").data) = ["notanumber".data] from by decide] at h
    simp at h
  · exact h4.2.1 rfl

/-! ## Claim C5: round-trip idempotence -/

/-- Claim C5 (corrected): re-parsing the reconstructed anchor text
(residual positive text, a space, then `--key value` for every table
entry in registry order) through the same tokenize-deduplicate-merge
procedure — including the `size` and `seed` post-processing — recovers
every field of the table, provided the string fields are *clean*
serialization values (no `--` or em dash, no newline, already stripped),
the positive text admits no directive start, the `cfg` decimal prints
back to itself, and the seed is already resolved (≠ −1, so it is not
re-randomized).  The cleanliness hypotheses are necessary: the claim's
unconditional "for every field table" version is refuted by the
counterexample below. -/
theorem C5_claim (pos s1 s2 s3 s4 : String) (n5 n6 n7 n8 n9 n10 : Int)
    (d : PyDec) (s12 : String) (n13 : Int) (rng : Int)
    (hg1 : goodVal s1 = true) (hg2 : goodVal s2 = true) (hg3 : goodVal s3 = true)
    (hg4 : goodVal s4 = true) (hg12 : goodVal s12 = true)
    (hd : pyFloat? (pyDecStr d) = some d)
    (hpos : cleanPos pos = true) (hseed : n5 ≠ -1) :
    reParse rng (pos ++ " " ++
        serialDirs (wItems (mkW s1 s2 s3 s4 n5 n6 n7 n8 n9 n10 d s12 n13))) =
      mkW s1 s2 s3 s4 n5 n6 n7 n8 n9 n10 d s12 n13 := by
  have hitems : wItems (mkW s1 s2 s3 s4 n5 n6 n7 n8 n9 n10 d s12 n13) =
      [("pos_", s1),
      ("neg", s2),
      ("neg_", s3),
      ("model", s4),
      ("seed", pyIntStr n5),
      ("steps", pyIntStr n6),
      ("width", pyIntStr n7),
      ("height", pyIntStr n8),
      ("count", pyIntStr n9),
      ("length", pyIntStr n10),
      ("cfg", pyDecStr d),
      ("file", s12),
      ("tokens", pyIntStr n13)] := by
    simp [wItems, mkW, pyValStr]
  have hgood : ∀ p ∈ [("pos_", s1),
      ("neg", s2),
      ("neg_", s3),
      ("model", s4),
      ("seed", pyIntStr n5),
      ("steps", pyIntStr n6),
      ("width", pyIntStr n7),
      ("height", pyIntStr n8),
      ("count", pyIntStr n9),
      ("length", pyIntStr n10),
      ("cfg", pyDecStr d),
      ("file", s12),
      ("tokens", pyIntStr n13)],
      p.1.data ≠ [] ∧ (∀ c ∈ p.1.data, isWordChar c = true) ∧ goodVal p.2 = true := by
    intro p hp
    simp only [List.mem_cons, List.not_mem_nil, or_false] at hp
    rcases hp with rfl | rfl | rfl | rfl | rfl | rfl | rfl | rfl | rfl | rfl | rfl | rfl | rfl
    · exact ⟨by dsimp only; decide, by dsimp only; decide, hg1⟩
    · exact ⟨by dsimp only; decide, by dsimp only; decide, hg2⟩
    · exact ⟨by dsimp only; decide, by dsimp only; decide, hg3⟩
    · exact ⟨by dsimp only; decide, by dsimp only; decide, hg4⟩
    · exact ⟨by dsimp only; decide, by dsimp only; decide, goodVal_pyIntStr _⟩
    · exact ⟨by dsimp only; decide, by dsimp only; decide, goodVal_pyIntStr _⟩
    · exact ⟨by dsimp only; decide, by dsimp only; decide, goodVal_pyIntStr _⟩
    · exact ⟨by dsimp only; decide, by dsimp only; decide, goodVal_pyIntStr _⟩
    · exact ⟨by dsimp only; decide, by dsimp only; decide, goodVal_pyIntStr _⟩
    · exact ⟨by dsimp only; decide, by dsimp only; decide, goodVal_pyIntStr _⟩
    · exact ⟨by dsimp only; decide, by dsimp only; decide, goodVal_pyDecStr _⟩
    · exact ⟨by dsimp only; decide, by dsimp only; decide, hg12⟩
    · exact ⟨by dsimp only; decide, by dsimp only; decide, goodVal_pyIntStr _⟩
  have hfind : findallP (pos ++ " " ++ serialDirs ([("pos_", s1),
      ("neg", s2),
      ("neg_", s3),
      ("model", s4),
      ("seed", pyIntStr n5),
      ("steps", pyIntStr n6),
      ("width", pyIntStr n7),
      ("height", pyIntStr n8),
      ("count", pyIntStr n9),
      ("length", pyIntStr n10),
      ("cfg", pyDecStr d),
      ("file", s12),
      ("tokens", pyIntStr n13)])) = [("pos_", s1),
      ("neg", s2),
      ("neg_", s3),
      ("model", s4),
      ("seed", pyIntStr n5),
      ("steps", pyIntStr n6),
      ("width", pyIntStr n7),
      ("height", pyIntStr n8),
      ("count", pyIntStr n9),
      ("length", pyIntStr n10),
      ("cfg", pyDecStr d),
      ("file", s12),
      ("tokens", pyIntStr n13)] :=
    findall_reconstruct pos _ hpos hgood
  have hnodup : (([("pos_", s1),
      ("neg", s2),
      ("neg_", s3),
      ("model", s4),
      ("seed", pyIntStr n5),
      ("steps", pyIntStr n6),
      ("width", pyIntStr n7),
      ("height", pyIntStr n8),
      ("count", pyIntStr n9),
      ("length", pyIntStr n10),
      ("cfg", pyDecStr d),
      ("file", s12),
      ("tokens", pyIntStr n13)]).map Prod.fst).Nodup := by
    have hkeys : (([("pos_", s1),
      ("neg", s2),
      ("neg_", s3),
      ("model", s4),
      ("seed", pyIntStr n5),
      ("steps", pyIntStr n6),
      ("width", pyIntStr n7),
      ("height", pyIntStr n8),
      ("count", pyIntStr n9),
      ("length", pyIntStr n10),
      ("cfg", pyDecStr d),
      ("file", s12),
      ("tokens", pyIntStr n13)]).map Prod.fst) = wKeys := by
      simp [wKeys]
    rw [hkeys]
    decide
  have hdict : pyDict ([("pos_", s1),
      ("neg", s2),
      ("neg_", s3),
      ("model", s4),
      ("seed", pyIntStr n5),
      ("steps", pyIntStr n6),
      ("width", pyIntStr n7),
      ("height", pyIntStr n8),
      ("count", pyIntStr n9),
      ("length", pyIntStr n10),
      ("cfg", pyDecStr d),
      ("file", s12),
      ("tokens", pyIntStr n13)]) = [("pos_", s1),
      ("neg", s2),
      ("neg_", s3),
      ("model", s4),
      ("seed", pyIntStr n5),
      ("steps", pyIntStr n6),
      ("width", pyIntStr n7),
      ("height", pyIntStr n8),
      ("count", pyIntStr n9),
      ("length", pyIntStr n10),
      ("cfg", pyDecStr d),
      ("file", s12),
      ("tokens", pyIntStr n13)] := pyDict_eq_self hnodup
  have hmerge : mergeW defaultW ([("pos_", s1),
      ("neg", s2),
      ("neg_", s3),
      ("model", s4),
      ("seed", pyIntStr n5),
      ("steps", pyIntStr n6),
      ("width", pyIntStr n7),
      ("height", pyIntStr n8),
      ("count", pyIntStr n9),
      ("length", pyIntStr n10),
      ("cfg", pyDecStr d),
      ("file", s12),
      ("tokens", pyIntStr n13)]) =
      mkW s1 s2 s3 s4 n5 n6 n7 n8 n9 n10 d s12 n13 := by
    simp [mergeW, applyDirectiveW, setCoerce, defaultW, mkW, pyInt?, pyIntL_pyIntStr, hd]
  have hsize : ([("pos_", s1),
      ("neg", s2),
      ("neg_", s3),
      ("model", s4),
      ("seed", pyIntStr n5),
      ("steps", pyIntStr n6),
      ("width", pyIntStr n7),
      ("height", pyIntStr n8),
      ("count", pyIntStr n9),
      ("length", pyIntStr n10),
      ("cfg", pyDecStr d),
      ("file", s12),
      ("tokens", pyIntStr n13)]).lookup "size" = none := by
    simp [List.lookup]
  unfold reParse
  dsimp only
  rw [hitems, hfind, hdict, hmerge, sizeStep_of_lookup_none hsize,
    seedStep_of_ne rfl hseed]
  rfl

set_option maxRecDepth 4000 in
/-- Counterexample to C5 as stated: a table whose `neg` value contains
`--` (here `"a--b"`) does not survive the reconstruct-and-re-parse round
trip — the re-parsed `neg` is `"a"`. -/
theorem C5_counterexample :
    (mkW "" "a--b" "" "" 5 4 512 512 1 80 ⟨1, 0⟩ "" 512).neg = PyVal.vStr "a--b" ∧
    (reParse 7 ("x" ++ " " ++
        serialDirs (wItems (mkW "" "a--b" "" "" 5 4 512 512 1 80 ⟨1, 0⟩ "" 512)))).neg =
      PyVal.vStr "a" := by
  decide

/-- Witness for C5 at a concrete clean table. -/
theorem C5_witness :
    reParse 3 ("a cat" ++ " " ++
        serialDirs (wItems (mkW "" "dark" "" "m1" 5 30 640 480 2 80 ⟨15, 1⟩ "f" 256))) =
      mkW "" "dark" "" "m1" 5 30 640 480 2 80 ⟨15, 1⟩ "f" 256 :=
  C5_claim "a cat" "" "dark" "" "m1" 5 30 640 480 2 80 ⟨15, 1⟩ "f" 256 3
    (by decide) (by decide) (by decide) (by decide) (by decide) (by decide)
    (by decide) (by decide)

/-! ## Claim C6: residual-text cleanliness -/

/-- Claim C6 (corrected): the whitespace half of the claim holds — the
directive-stripped residual contains no whitespace run of length ≥ 2 and
carries no leading or trailing whitespace.  (The grammar half is false:
the residual can still contain a substring matching the directive
grammar, see the counterexample.) -/
theorem C6_claim (s : String) :
    hasRun2 (stripResidual s).data = false ∧
    pyStrip (stripResidual s) = stripResidual s :=
  ⟨hasRun2_stripResidual s, stripResidual_stripped s⟩

/-- Counterexample to C6 as stated: on `"--a\n\nb"` the tokenizer matches
nothing (the lookahead cannot cross the newlines), so the residual is the
whole text collapsed — `"--a b"` — which itself matches the directive
grammar. -/
theorem C6_counterexample :
    findallP "--a\n\nb" = [] ∧
    stripResidual "--a\n\nb" = "--a b" ∧
    findallP (stripResidual "--a\n\nb") = [("a", "b")] := by
  decide

/-! ## Claim C8: file resolution totality and priority -/

/-- Claim C8 (confirmed): `_load_file_as_base64` refines the spec's
resolver description — URL fetch first (success requires a non-error
status and a Content-Type containing `image`), then an existing local
path, then strict base64 validation of the value itself, with `""` on
every failure.  The only hypothesis is that the empty path does not name
an existing file (`os.path.exists("")` is false). -/
theorem C8_claim (env : FileEnv) (fv : String) (h : env.pathExists "" = false) :
    load_file_as_base64 env fv = resolveSpecDesc env fv := by
  by_cases hfv : fv = ""
  · subst hfv
    unfold load_file_as_base64 resolveSpecDesc
    rw [if_pos rfl]
    rw [if_neg (by decide), if_neg (by simp [h]), if_pos (by decide)]
  · unfold load_file_as_base64 resolveSpecDesc
    rw [if_neg hfv]
    by_cases hurl : (swith fv "http://" || swith fv "https://") = true
    · rw [if_pos hurl, if_pos hurl]
      cases hg : env.httpGet fv 10 with
      | none => rfl
      | some r =>
        dsimp only
        by_cases hs : 400 ≤ r.status
        · have hlt : ¬(r.status < 400) := Nat.not_lt.mpr hs
          rw [if_pos hs, if_neg (by simp [hlt])]
        · have hlt : r.status < 400 := Nat.lt_of_not_le hs
          rw [if_neg hs]
          by_cases hc : containsSeq "image".data (r.contentType.getD "").data = true
          · rw [if_pos hc, if_pos (by simp [hlt, hc])]
          · rw [if_neg hc, if_neg (by simp [hc])]
    · rw [if_neg hurl, if_neg hurl]

/-- Witness for C8 at concrete inputs: a strictly valid base64 value is
returned unchanged; a non-base64 value degrades to `""`. -/
theorem C8_witness :
    (load_file_as_base64 envNone "abcd" = resolveSpecDesc envNone "abcd" ∧
      load_file_as_base64 envNone "abcd" = "abcd") ∧
    (load_file_as_base64 envNone "!!" = resolveSpecDesc envNone "!!" ∧
      load_file_as_base64 envNone "!!" = "") :=
  ⟨⟨C8_claim envNone "abcd" rfl, by decide⟩, ⟨C8_claim envNone "!!" rfl, by decide⟩⟩

/-! ## Claim C10: multiple-anchor behavior -/

/-- Pushing a default through `getLast?` of a cons. -/
theorem lastGetD : ∀ (xs : List String) (a acc : String),
    ((a :: xs).getLast?).getD acc = (xs.getLast?).getD a := by
  intro xs
  induction xs with
  | nil => intro a acc; rfl
  | cons b r ih => intro a acc; rw [List.getLast?_cons_cons, ih b acc, ih b a]

/-- One step of the first template loop, described through `anchorCT`. -/
theorem edpStep (acc : String) (ent : String × JNode) :
    (match ent.2 with
      | JNode.node ct inputs =>
        if ct = "TextCommandParser" then
          match inputs.lookup "command_text" with
          | some s => s
          | none => acc
        else acc
      | JNode.other => acc) = (anchorCT ent).getD acc := by
  cases hn : ent.2 with
  | other => simp [anchorCT, hn]
  | node ct inputs =>
    simp only [anchorCT, hn]
    by_cases hct : ct = "TextCommandParser"
    · rw [if_pos hct, if_pos hct]
      cases hl : inputs.lookup "command_text" <;> simp [hl]
    · rw [if_neg hct, if_neg hct]
      simp

/-- The first template loop keeps the `command_text` of the last anchor
node (generalized over the initial accumulator). -/
theorem edp_go : ∀ (tmpl : Template) (acc : String),
    tmpl.foldl
      (fun acc ent =>
        match ent.2 with
        | JNode.node ct inputs =>
          if ct = "TextCommandParser" then
            match inputs.lookup "command_text" with
            | some s => s
            | none => acc
          else acc
        | JNode.other => acc)
      acc = ((tmpl.filterMap anchorCT).getLast?).getD acc := by
  intro tmpl
  induction tmpl with
  | nil => intro acc; rfl
  | cons ent rest ih =>
    intro acc
    simp only [List.foldl_cons, List.filterMap_cons]
    rw [edpStep acc ent]
    cases hA : anchorCT ent with
    | none =>
      simp only [hA, Option.getD_none]
      exact ih acc
    | some s =>
      simp only [hA, Option.getD_some]
      rw [ih s, lastGetD]

/-- Rewriting every `command_text` entry of an input map, observed
through `lookup`. -/
theorem lookup_map_ct (inputs : List (String × String)) (newText : String) :
    (inputs.map (fun kv => if kv.1 = "command_text" then (kv.1, newText) else kv)).lookup
      "command_text" = (inputs.lookup "command_text").map (fun _ => newText) := by
  induction inputs with
  | nil => rfl
  | cons kv rest ih =>
    obtain ⟨k, v⟩ := kv
    by_cases hk : k = "command_text"
    · subst hk
      simp [List.lookup, ih]
    · have hne : ("command_text" == k) = false := beq_eq_false_iff_ne.mpr (fun h => hk h.symm)
      have hmap : (if (k, v).1 = "command_text" then ((k, v).1, newText) else (k, v)) =
          (k, v) := by
        simp [hk]
      have hlook : ∀ (tl : List (String × String)),
          List.lookup "command_text" ((k, v) :: tl) = List.lookup "command_text" tl :=
        fun tl => by simp only [List.lookup, hne]
      rw [List.map_cons, hmap, hlook, hlook, ih]

/-- Claim C10 (confirmed): `parse_prompt` reads the template-embedded
defaults from the `command_text` of only the *last* `TextCommandParser`
node in document order, but writes the reconstructed command text into
every such node (all other nodes are left untouched). -/
theorem C10_claim :
    (∀ tmpl : Template, extractDefaultPrompt tmpl = lastAnchorText tmpl) ∧
    (∀ (newText : String) (ent : String × JNode),
      anchorCT (setCommandText newText ent) = (anchorCT ent).map (fun _ => newText)) ∧
    (∀ (newText : String) (ent : String × JNode),
      anchorCT ent = none → setCommandText newText ent = ent) ∧
    (∀ (fs : String → Bool) (tload : String → Option Template) (rng : Int) (p0 : String),
      (parse_prompt fs tload rng p0).template =
        (ppTemplate fs tload p0).map (setCommandText (ppNewCmd fs tload rng p0)) ∧
      ppPassOne fs tload p0 =
        mergeW defaultW (pyDict (findallP (lastAnchorText (ppTemplate fs tload p0))))) := by
  have hpart1 : ∀ tmpl : Template, extractDefaultPrompt tmpl = lastAnchorText tmpl := by
    intro tmpl
    unfold extractDefaultPrompt lastAnchorText
    exact edp_go tmpl ""
  refine ⟨hpart1, ?_, ?_, ?_⟩
  · intro newText ent
    obtain ⟨id, nd⟩ := ent
    cases nd with
    | other => rfl
    | node ct inputs =>
      by_cases hct : ct = "TextCommandParser"
      · cases hl : inputs.lookup "command_text" with
        | none =>
          have hcond : (decide (ct = "TextCommandParser") &&
              (inputs.lookup "command_text").isSome) = false := by
            simp [hl]
          simp only [setCommandText, hcond, Bool.false_eq_true, if_false]
          simp [anchorCT, hct, hl]
        | some sX =>
          have hcond : (decide (ct = "TextCommandParser") &&
              (inputs.lookup "command_text").isSome) = true := by
            simp [hct, hl]
          simp only [setCommandText, hcond, if_true]
          simp [anchorCT, hct, hl, lookup_map_ct]
      · have hcond : (decide (ct = "TextCommandParser") &&
            (inputs.lookup "command_text").isSome) = false := by
          simp [hct]
        simp only [setCommandText, hcond, Bool.false_eq_true, if_false]
        simp [anchorCT, hct]
  · intro newText ent hA
    obtain ⟨id, nd⟩ := ent
    cases nd with
    | other => rfl
    | node ct inputs =>
      by_cases hct : ct = "TextCommandParser"
      · simp only [anchorCT, hct, if_true] at hA
        have hcond : (decide (ct = "TextCommandParser") &&
            (inputs.lookup "command_text").isSome) = false := by
          simp [hA]
        simp only [setCommandText, hcond, Bool.false_eq_true, if_false]
      · have hcond : (decide (ct = "TextCommandParser") &&
            (inputs.lookup "command_text").isSome) = false := by
          simp [hct]
        simp only [setCommandText, hcond, Bool.false_eq_true, if_false]
  · intro fs tload rng p0
    refine ⟨rfl, ?_⟩
    unfold ppPassOne
    rw [hpart1]

/-- Witness for C10 at a concrete two-anchor document. -/
theorem C10_witness :
    extractDefaultPrompt
      [("1", JNode.node "TextCommandParser" [("command_text", "a")]),
       ("2", JNode.other),
       ("3", JNode.node "TextCommandParser" [("command_text", "b")])] = "b" ∧
    setCommandText "new" ("9", JNode.other) = ("9", JNode.other) ∧
    anchorCT (setCommandText "new"
      ("1", JNode.node "TextCommandParser" [("command_text", "a")])) = some "new" := by
  have h := C10_claim
  refine ⟨?_, h.2.2.1 "new" ("9", JNode.other) rfl, ?_⟩
  · rw [h.1]
    decide
  · rw [h.2.1 "new" ("1", JNode.node "TextCommandParser" [("command_text", "a")])]
    decide

/-! ## Claim C9: path confinement — component machinery -/

/-- Splitting never yields the empty list of components. -/
theorem splitOnC_ne_nil (sep : Char) (l : List Char) : splitOnC sep l ≠ [] := by
  induction l with
  | nil => simp [splitOnC]
  | cons c r ih =>
    rw [splitOnC.eq_def]
    dsimp only
    cases h : splitOnC sep r with
    | nil => exact absurd h ih
    | cons w ws =>
      by_cases hc : c = sep <;> simp [hc]

/-- No component produced by splitting contains the separator. -/
theorem splitOnC_no_sep (sep : Char) : ∀ (l : List Char), ∀ w ∈ splitOnC sep l, sep ∉ w := by
  intro l
  induction l with
  | nil =>
    intro w hw
    simp [splitOnC] at hw
    subst hw
    simp
  | cons c r ih =>
    intro w hw
    rw [splitOnC.eq_def] at hw
    dsimp only at hw
    cases h : splitOnC sep r with
    | nil => exact absurd h (splitOnC_ne_nil sep r)
    | cons x xs =>
      rw [h] at hw
      dsimp only at hw
      by_cases hc : c = sep
      · rw [if_pos hc] at hw
        rcases List.mem_cons.mp hw with rfl | hw2
        · simp
        · exact ih w (h ▸ hw2)
      · rw [if_neg hc] at hw
        rcases List.mem_cons.mp hw with rfl | hw2
        · have hx : sep ∉ x := ih x (h ▸ List.mem_cons_self x xs)
          simp only [List.mem_cons, not_or]
          exact ⟨fun he => hc he.symm, hx⟩
        · exact ih w (h ▸ List.mem_cons_of_mem x hw2)

/-- Splitting a separator-free list yields that single component. -/
theorem splitOnC_single_nosep (sep : Char) : ∀ (w : List Char), sep ∉ w →
    splitOnC sep w = [w] := by
  intro w
  induction w with
  | nil => intro _; rfl
  | cons c r ih =>
    intro h
    have hc : c ≠ sep := fun he => h (List.mem_cons.mpr (Or.inl he.symm))
    have hr : sep ∉ r := fun hm => h (List.mem_cons_of_mem c hm)
    rw [splitOnC.eq_def]
    dsimp only
    rw [ih hr]
    dsimp only
    rw [if_neg hc]

/-- A leading separator contributes an empty component. -/
theorem splitOnC_cons_sep (sep : Char) (r : List Char) :
    splitOnC sep (sep :: r) = [] :: splitOnC sep r := by
  conv_lhs => rw [splitOnC.eq_def]
  dsimp only
  cases h : splitOnC sep r with
  | nil => exact absurd h (splitOnC_ne_nil sep r)
  | cons x xs =>
    dsimp only
    rw [if_pos rfl]

/-- Splitting peels a separator-free head component at its separator. -/
theorem splitOnC_append (sep : Char) : ∀ (w t : List Char), sep ∉ w →
    splitOnC sep (w ++ sep :: t) = w :: splitOnC sep t := by
  intro w
  induction w with
  | nil =>
    intro t _
    exact splitOnC_cons_sep sep t
  | cons c r ih =>
    intro t h
    have hc : c ≠ sep := fun he => h (List.mem_cons.mpr (Or.inl he.symm))
    have hr : sep ∉ r := fun hm => h (List.mem_cons_of_mem c hm)
    show splitOnC sep (c :: (r ++ sep :: t)) = (c :: r) :: splitOnC sep t
    rw [splitOnC.eq_def]
    dsimp only
    rw [ih t hr]
    dsimp only
    rw [if_neg hc]

/-- Splitting undoes slash-intercalation of slash-free components. -/
theorem splitOnC_icSlash : ∀ (comps : List (List Char)), comps ≠ [] →
    (∀ w ∈ comps, '/' ∉ w) → splitOnC '/' (icSlash comps) = comps := by
  intro comps
  induction comps with
  | nil => intro h; exact absurd rfl h
  | cons w ws ih =>
    intro _ hcl
    cases ws with
    | nil => exact splitOnC_single_nosep '/' w (hcl w (List.mem_cons_self _ _))
    | cons x xs =>
      show splitOnC '/' (w ++ '/' :: icSlash (x :: xs)) = w :: x :: xs
      rw [splitOnC_append '/' w _ (hcl w (List.mem_cons_self _ _))]
      rw [ih (by simp) (fun u hu => hcl u (List.mem_cons_of_mem _ hu))]

/-- The common stem equals its right argument exactly when the right
argument is a prefix of the left. -/
theorem commonStem_eq_right : ∀ (ys xs : List (List Char)),
    commonStem xs ys = ys ↔ ys <+: xs := by
  intro ys
  induction ys with
  | nil =>
    intro xs
    constructor
    · intro _
      exact List.nil_prefix
    · intro _
      cases xs with
      | nil => rfl
      | cons a as => rfl
  | cons b bs ih =>
    intro xs
    cases xs with
    | nil =>
      constructor
      · intro h
        simp [commonStem] at h
      · intro h
        have h2 := List.prefix_nil.mp h
        simp at h2
    | cons a as =>
      show (if a = b then a :: commonStem as bs else []) = b :: bs ↔ b :: bs <+: a :: as
      by_cases hab : a = b
      · subst hab
        rw [if_pos rfl]
        constructor
        · intro h
          injection h with _ h2
          exact List.cons_prefix_cons.mpr ⟨rfl, (ih as).mp h2⟩
        · intro h
          obtain ⟨-, h2⟩ := List.cons_prefix_cons.mp h
          rw [(ih as).mpr h2]
      · rw [if_neg hab]
        constructor
        · intro h
          simp at h
        · intro h
          obtain ⟨hba, -⟩ := List.cons_prefix_cons.mp h
          exact absurd hba.symm hab

/-- The common stem is a prefix of the right argument. -/
theorem commonStem_prefix_right : ∀ (xs ys : List (List Char)),
    commonStem xs ys <+: ys := by
  intro xs
  induction xs with
  | nil =>
    intro ys
    cases ys with
    | nil => exact List.nil_prefix
    | cons b bs => exact List.nil_prefix
  | cons a as ih =>
    intro ys
    cases ys with
    | nil => exact List.nil_prefix
    | cons b bs =>
      show (if a = b then a :: commonStem as bs else []) <+: b :: bs
      by_cases hab : a = b
      · rw [if_pos hab]
        subst hab
        exact List.cons_prefix_cons.mpr ⟨rfl, ih bs⟩
      · rw [if_neg hab]
        exact List.nil_prefix

/-- A `getLast?` hit is a member. -/
theorem getLastMem : ∀ (l : List (List Char)) (w : List Char),
    l.getLast? = some w → w ∈ l := by
  intro l
  induction l with
  | nil =>
    intro w h
    simp at h
  | cons a r ih =>
    intro w h
    cases r with
    | nil =>
      simp at h
      subst h
      exact List.mem_cons_self _ _
    | cons b r2 =>
      rw [List.getLast?_cons_cons] at h
      exact List.mem_cons_of_mem a (ih w h)

/-- One `normpath` component step on an absolute path preserves component
cleanliness. -/
theorem normStep_clean (acc : List (List Char)) (comp : List Char)
    (hacc : ∀ w ∈ acc, cleanComp w) (hcomp : '/' ∉ comp) :
    ∀ w ∈ normStep true acc comp, cleanComp w := by
  intro w hw
  unfold normStep at hw
  split at hw
  · exact hacc w hw
  · rename_i hne1
    split at hw
    · rename_i hne2
      rcases List.mem_append.mp hw with hw2 | hw2
      · exact hacc w hw2
      · have hw3 : w = comp := List.mem_singleton.mp hw2
        subst hw3
        exact ⟨fun h => hne1 (by simp [h]), fun h => hne1 (by simp [h]), hne2, hcomp⟩
    · split at hw
      · simp at hw
      · split at hw
        · rename_i hlast
          have hmem := getLastMem acc _ hlast
          exact absurd rfl (hacc _ hmem).2.2.1
        · exact hacc w ((List.dropLast_sublist acc).subset hw)

/-- The whole component walk preserves component cleanliness. -/
theorem foldl_normStep_clean : ∀ (cs : List (List Char)) (acc : List (List Char)),
    (∀ w ∈ acc, cleanComp w) → (∀ w ∈ cs, '/' ∉ w) →
    ∀ w ∈ cs.foldl (normStep true) acc, cleanComp w := by
  intro cs
  induction cs with
  | nil => intro acc hacc _ w hw; exact hacc w hw
  | cons c rest ih =>
    intro acc hacc hcs w hw
    rw [List.foldl_cons] at hw
    exact ih (normStep true acc c)
      (normStep_clean acc c hacc (hcs c (List.mem_cons_self _ _)))
      (fun u hu => hcs u (List.mem_cons_of_mem _ hu)) w hw

/-- A path starting with exactly one slash has one retained leading
slash. -/
theorem leadSlashes_one {c : Char} {t : List Char} (hc : c ≠ '/') :
    leadSlashes ('/' :: c :: t) = 1 := by
  unfold leadSlashes
  have h2 : List.isPrefixOf ['/', '/'] ('/' :: c :: t) = false := by
    have hcc : ('/' == c) = false := beq_eq_false_iff_ne.mpr (Ne.symm hc)
    simp [List.isPrefixOf, hcc]
  rw [h2]
  simp [List.isPrefixOf]

/-- Boolean prefix test agrees with the prefix relation. -/
theorem isPrefixOf_agree : ∀ (l m : List Char),
    List.isPrefixOf l m = true ↔ l <+: m := by
  intro l
  induction l with
  | nil =>
    intro m
    simp [List.isPrefixOf]
  | cons a as ih =>
    intro m
    cases m with
    | nil => simp [List.isPrefixOf]
    | cons b bs =>
      simp [List.isPrefixOf, List.cons_prefix_cons, ih bs]

/-- Alignment of slash-separated items under the prefix relation: a
slash-free head component can only line up with a slash-free head
component. -/
theorem sepAlign : ∀ (p c u v : List Char), '/' ∉ p → '/' ∉ c →
    (p ++ '/' :: u <+: c ++ '/' :: v ↔ p = c ∧ u <+: v) := by
  intro p
  induction p with
  | nil =>
    intro c u v _ hc
    cases c with
    | nil => simp [List.cons_prefix_cons]
    | cons e c' =>
      have he : e ≠ '/' := fun h => hc (List.mem_cons.mpr (Or.inl h.symm))
      constructor
      · intro hpre
        obtain ⟨h1, -⟩ := List.cons_prefix_cons.mp hpre
        exact absurd h1.symm he
      · rintro ⟨h, -⟩
        simp at h
  | cons a p' ih =>
    intro c u v hp hc
    have ha : a ≠ '/' := fun h => hp (List.mem_cons.mpr (Or.inl h.symm))
    have hp' : '/' ∉ p' := fun hm => hp (List.mem_cons_of_mem a hm)
    cases c with
    | nil =>
      constructor
      · intro hpre
        obtain ⟨h1, -⟩ := List.cons_prefix_cons.mp hpre
        exact absurd h1 ha
      · rintro ⟨h, -⟩
        simp at h
    | cons e c' =>
      have hc' : '/' ∉ c' := fun hm => hc (List.mem_cons_of_mem e hm)
      show a :: (p' ++ '/' :: u) <+: e :: (c' ++ '/' :: v) ↔ _
      rw [List.cons_prefix_cons, ih c' u v hp' hc']
      constructor
      · rintro ⟨h1, h2, h3⟩
        exact ⟨by rw [h1, h2], h3⟩
      · rintro ⟨h, h3⟩
        injection h with h1 h2
        exact ⟨h1, h2, h3⟩

/-- Lying strictly under `basedir/output`, characterized on clean
component lists. -/
theorem underRoot_iff (comps : List (List Char)) (hcl : ∀ w ∈ comps, '/' ∉ w) :
    ("basedir".data ++ '/' :: ("output".data ++ '/' :: [])) <+: icSlash comps ↔
      ∃ r rs, comps = "basedir".data :: "output".data :: r :: rs := by
  cases comps with
  | nil =>
    constructor
    · intro h
      have hX := List.prefix_nil.mp h
      simp at hX
    · rintro ⟨r, rs, h⟩
      simp at h
  | cons w ws =>
    have hw : '/' ∉ w := hcl w (List.mem_cons_self _ _)
    cases ws with
    | nil =>
      constructor
      · intro h
        have : '/' ∈ w := h.subset (by simp)
        exact absurd this hw
      · rintro ⟨r, rs, h⟩
        simp at h
    | cons x xs =>
      have hx : '/' ∉ x := hcl x (List.mem_cons_of_mem _ (List.mem_cons_self _ _))
      have hbd : ('/' : Char) ∉ "basedir".data := by decide
      have hout : ('/' : Char) ∉ "output".data := by decide
      show _ <+: w ++ '/' :: icSlash (x :: xs) ↔ _
      rw [sepAlign "basedir".data w _ _ hbd hw]
      cases xs with
      | nil =>
        constructor
        · rintro ⟨-, h2⟩
          have : '/' ∈ x := h2.subset (by simp)
          exact absurd this hx
        · rintro ⟨r, rs, h⟩
          simp at h
      | cons y ys =>
        show ("basedir".data = w ∧
            ("output".data ++ '/' :: []) <+: x ++ '/' :: icSlash (y :: ys)) ↔ _
        rw [sepAlign "output".data x _ _ hout hx]
        constructor
        · rintro ⟨h1, h2, -⟩
          exact ⟨y, ys, by rw [← h1, ← h2]⟩
        · rintro ⟨r, rs, h⟩
          injection h with ha hrest
          injection hrest with hb hrest2
          injection hrest2 with hy hys
          exact ⟨ha.symm, hb.symm, List.nil_prefix⟩

/-- Slash-intercalation is injective on nonempty slash-free component
lists. -/
theorem icSlash_inj_clean {xs ys : List (List Char)} (hxe : xs ≠ []) (hye : ys ≠ [])
    (hx : ∀ w ∈ xs, '/' ∉ w) (hy : ∀ w ∈ ys, '/' ∉ w)
    (h : icSlash xs = icSlash ys) : xs = ys := by
  have h2 := congrArg (splitOnC '/') h
  rw [splitOnC_icSlash xs hxe hx, splitOnC_icSlash ys hye hy] at h2
  exact h2

/-- Equality with the allowed root, characterized on slash-free component
lists. -/
theorem mkSlash_eq_root_iff (xs : List (List Char)) (hx : ∀ w ∈ xs, '/' ∉ w) :
    String.mk ('/' :: icSlash xs) = allowedRoot ↔
      xs = ["basedir".data, "output".data] := by
  constructor
  · intro h
    have hdata : '/' :: icSlash xs = allowedRoot.data := congrArg String.data h
    have hroot2 : allowedRoot.data = '/' :: icSlash ["basedir".data, "output".data] := by
      decide
    rw [hroot2] at hdata
    have hic : icSlash xs = icSlash ["basedir".data, "output".data] := by
      injection hdata
    by_cases hxe : xs = []
    · subst hxe
      exact absurd hic.symm (by decide)
    · exact icSlash_inj_clean hxe (by simp) hx (by decide) hic
  · intro h
    rw [h]
    decide

/-- The normalized form of a single-leading-slash path: one leading slash
followed by slash-intercalated clean components. -/
theorem normpath_shape (s : String) {c : Char} {t : List Char}
    (hs : s.data = '/' :: c :: t) (hc : c ≠ '/') :
    ∃ comps : List (List Char), (∀ w ∈ comps, cleanComp w) ∧
      (normpath s).data = '/' :: icSlash comps := by
  refine ⟨(splitOnC '/' s.data).foldl (normStep true) [], ?_, ?_⟩
  · exact foldl_normStep_clean _ [] (by simp)
      (fun w hw => splitOnC_no_sep '/' s.data w hw)
  · unfold normpath normpathL
    rw [hs]
    rw [if_neg (by simp)]
    dsimp only
    rw [leadSlashes_one hc]
    rw [if_neg (by simp)]
    rfl

/-- On a normalized absolute path of clean components, the
`commonpath`-based root test of the code agrees with the claim-side
`liesUnderB` predicate. -/
theorem confinement_equiv (comps : List (List Char)) (hcl : ∀ w ∈ comps, cleanComp w) :
    (commonpath2 (String.mk ('/' :: icSlash comps)) allowedRoot = allowedRoot) ↔
      liesUnderB (String.mk ('/' :: icSlash comps)) allowedRoot = true := by
  have hslash : ∀ w ∈ comps, '/' ∉ w := fun w hw => (hcl w hw).2.2.2
  have hfa : filtComps (String.mk ('/' :: icSlash comps)).data = comps := by
    show filtComps ('/' :: icSlash comps) = comps
    unfold filtComps
    rw [splitOnC_cons_sep]
    by_cases hne : comps = []
    · subst hne
      decide
    · rw [splitOnC_icSlash comps hne hslash]
      have hpe : (!(([] : List Char) == []) && !(([] : List Char) == ['.'])) = false := by
        decide
      have hfilter : List.filter (fun w => !(w == []) && !(w == ['.'])) comps = comps := by
        rw [List.filter_eq_self]
        intro a ha
        obtain ⟨h1, h2, -, -⟩ := hcl a ha
        simp [h1, h2]
      simp only [List.filter_cons, hpe, Bool.false_eq_true, if_false, hfilter]
  have hfr : filtComps allowedRoot.data = ["basedir".data, "output".data] := by
    decide
  have hcp : commonpath2 (String.mk ('/' :: icSlash comps)) allowedRoot =
      String.mk ('/' :: icSlash (commonStem comps ["basedir".data, "output".data])) := by
    unfold commonpath2
    rw [hfa, hfr]
  have hstem_pre := commonStem_prefix_right comps ["basedir".data, "output".data]
  have hstem_slash : ∀ w ∈ commonStem comps ["basedir".data, "output".data], '/' ∉ w := by
    intro w hw
    have hw2 := hstem_pre.subset hw
    have hw3 : w = "basedir".data ∨ w = "output".data := by simpa using hw2
    rcases hw3 with rfl | rfl
    · decide
    · decide
  have hlies : liesUnderB (String.mk ('/' :: icSlash comps)) allowedRoot = true ↔
      (String.mk ('/' :: icSlash comps) = allowedRoot ∨
        ("basedir".data ++ '/' :: ("output".data ++ '/' :: [])) <+: icSlash comps) := by
    unfold liesUnderB
    rw [Bool.or_eq_true, beq_iff_eq]
    have hdata : (allowedRoot ++ "/").data =
        '/' :: ("basedir".data ++ '/' :: ("output".data ++ '/' :: [])) := by decide
    rw [hdata]
    rw [show (String.mk ('/' :: icSlash comps)).data = '/' :: icSlash comps from rfl]
    rw [isPrefixOf_agree, List.cons_prefix_cons]
    simp
  have hpr : (["basedir".data, "output".data] <+: comps) ↔
      (comps = ["basedir".data, "output".data] ∨
        ∃ r rs, comps = "basedir".data :: "output".data :: r :: rs) := by
    constructor
    · rintro ⟨u, hu⟩
      cases u with
      | nil =>
        left
        rw [← hu]
        simp
      | cons r rs =>
        right
        exact ⟨r, rs, by rw [← hu]; simp⟩
    · rintro (h | ⟨r, rs, h⟩)
      · rw [h]
      · rw [h]
        exact ⟨r :: rs, rfl⟩
  rw [hcp, mkSlash_eq_root_iff _ hstem_slash, commonStem_eq_right, hlies,
    mkSlash_eq_root_iff comps hslash, underRoot_iff comps hslash]
  exact hpr

/-- The prefixing step always produces a path of the form `/b…`. -/
theorem sp_shape (bp : String) :
    ∃ t : List Char, (sanitizePrefixed bp).data = '/' :: 'b' :: t := by
  unfold sanitizePrefixed
  dsimp only
  by_cases h : swith (String.mk ((normpathL bp.data).map
      (fun c => if c = '\\' then '/' else c))) "/basedir/output" = true
  · rw [if_pos h]
    unfold swith at h
    have hpre : "/basedir/output".data <+:
        (String.mk ((normpathL bp.data).map (fun c => if c = '\\' then '/' else c))).data :=
      (isPrefixOf_agree _ _).mp h
    obtain ⟨u, hu⟩ := hpre
    have hlit : "/basedir/output".data = '/' :: 'b' :: "asedir/output".data := by decide
    rw [hlit] at hu
    exact ⟨"asedir/output".data ++ u, by rw [← hu]; simp⟩
  · rw [if_neg h]
    unfold pjoin
    have hx : swith (lstripSlash (String.mk ((normpathL bp.data).map
        (fun c => if c = '\\' then '/' else c)))) "/" = false := by
      unfold swith lstripSlash
      cases hd : ((String.mk ((normpathL bp.data).map
          (fun c => if c = '\\' then '/' else c))).data.dropWhile (· = '/')) with
      | nil => decide
      | cons c t0 =>
        have hcp := dropWhile_head_not _ hd
        have hne : c ≠ '/' := by simpa using hcp
        have hbc : ('/' == c) = false := beq_eq_false_iff_ne.mpr (Ne.symm hne)
        show List.isPrefixOf "/".data (c :: t0) = false
        simp [List.isPrefixOf, hbc]
    rw [if_neg (by simp [hx])]
    rw [if_neg (by decide)]
    refine ⟨"asedir/output".data ++ '/' :: (lstripSlash (String.mk ((normpathL bp.data).map
      (fun c => if c = '\\' then '/' else c)))).data, ?_⟩
    rw [String.data_append, String.data_append]
    have hlit : "/basedir/output".data = '/' :: 'b' :: "asedir/output".data := by decide
    rw [hlit]
    simp

/-- `abspath` on an already-absolute path is `normpath`. -/
theorem abspathP_absolute (cwd : String) (s : String) {r : List Char}
    (hs : s.data = '/' :: r) : abspathP cwd s = normpath s := by
  unfold abspathP
  rw [if_pos ?hcond]
  case hcond =>
    unfold swith
    rw [hs]
    simp [List.isPrefixOf]

/-- `abspath` fixes the allowed root. -/
theorem abspathP_root (cwd : String) : abspathP cwd allowedRoot = allowedRoot := by
  unfold abspathP
  rw [if_pos (by decide)]
  decide

/-- Claim C9 (confirmed): `sanitize_base_path` raises `ValueError`
(modelled as `Except.error`) exactly when the normalized absolute form of
the candidate — prefixed under `/basedir/output` when it does not already
start with that string — does not lie under `/basedir/output`, and
otherwise returns that absolute path; the rejection is an error value
propagated to the caller, not a silent default. -/
theorem C9_claim (cwd bp : String) :
    (liesUnderB (abspathP cwd (sanitizePrefixed bp)) allowedRoot = true →
      sanitize_base_path cwd bp = Except.ok (abspathP cwd (sanitizePrefixed bp))) ∧
    (liesUnderB (abspathP cwd (sanitizePrefixed bp)) allowedRoot = false →
      sanitize_base_path cwd bp = Except.error "Path must remain inside /basedir/output") := by
  obtain ⟨t0, ht⟩ := sp_shape bp
  have habs : abspathP cwd (sanitizePrefixed bp) = normpath (sanitizePrefixed bp) :=
    abspathP_absolute cwd _ (r := 'b' :: t0) ht
  obtain ⟨comps, hcl, hshape⟩ := normpath_shape (sanitizePrefixed bp) ht (by decide)
  have hmk : normpath (sanitizePrefixed bp) = String.mk ('/' :: icSlash comps) :=
    congrArg String.mk hshape
  have hequiv := confinement_equiv comps hcl
  rw [← hmk] at hequiv
  constructor
  · intro h
    rw [habs] at h
    unfold sanitize_base_path
    dsimp only
    rw [abspathP_root, habs]
    rw [if_pos (hequiv.mpr h)]
  · intro h
    rw [habs] at h
    unfold sanitize_base_path
    dsimp only
    rw [abspathP_root, habs]
    rw [if_neg (fun hcond => absurd (hequiv.mp hcond) (by simp [h]))]

/-- Witness for C9 at concrete inputs: a relative candidate is confined
under the root, and a `..`-escaping candidate is rejected with an
error. -/
theorem C9_witness :
    sanitize_base_path "/" "pics" = Except.ok "/basedir/output/pics" ∧
    sanitize_base_path "/" "../../etc/passwd" =
      Except.error "Path must remain inside /basedir/output" := by
  constructor
  · have h := (C9_claim "/" "pics").1 (by decide)
    rw [h]
    exact congrArg Except.ok (by decide)
  · exact (C9_claim "/" "../../etc/passwd").2 (by decide)

end FTC
